import Mathlib

/-!
Verification of the `wsgi-byoid` User-header middleware (`wsgiuser.py`).

Python strings are embedded as lists of Unicode code points (`PyStr`).
The regular expressions built in `wsgiuser.py` (lines 32-59) are embedded
as terms of a small regex type `RE` with character classes; the language
semantics is the inductive `RE.Matches`, and `RE.bmatch` is an executable
Brzozowski-derivative matcher proved equivalent to the semantics.
-/

abbrev PyStr := List Nat

/-- Regular expressions over code points, with character classes.
`cls p` is a character class `[...]`, `cat` is juxtaposition, `alt` is `|`,
`star` is `*`; `eps` matches the empty string and `fail` matches nothing. -/
inductive RE where
  | eps : RE
  | fail : RE
  | cls : (Nat → Bool) → RE
  | cat : RE → RE → RE
  | alt : RE → RE → RE
  | star : RE → RE

/-- `r+` is `r r*`, as in the Python regex one-or-more operator. -/
def RE.rplus (r : RE) : RE := .cat r (.star r)

/-- `r?` is `r | ε`, as in the Python regex optional operator. -/
def RE.ropt (r : RE) : RE := .alt r .eps

/-- Language semantics of a regex: `Matches r s` means `s ∈ L(r)`. -/
inductive RE.Matches : RE → PyStr → Prop where
  | eps : RE.Matches .eps []
  | cls {p : Nat → Bool} {c : Nat} : p c = true → RE.Matches (.cls p) [c]
  | catI {r₁ r₂ : RE} {s₁ s₂ : PyStr} :
      RE.Matches r₁ s₁ → RE.Matches r₂ s₂ → RE.Matches (.cat r₁ r₂) (s₁ ++ s₂)
  | altL {r₁ r₂ : RE} {s : PyStr} : RE.Matches r₁ s → RE.Matches (.alt r₁ r₂) s
  | altR {r₁ r₂ : RE} {s : PyStr} : RE.Matches r₂ s → RE.Matches (.alt r₁ r₂) s
  | starNil {r : RE} : RE.Matches (.star r) []
  | starCons {r : RE} {s₁ s₂ : PyStr} :
      RE.Matches r s₁ → RE.Matches (.star r) s₂ → RE.Matches (.star r) (s₁ ++ s₂)

/-- Does the regex accept the empty string? -/
def RE.nullable : RE → Bool
  | .eps => true
  | .fail => false
  | .cls _ => false
  | .cat r₁ r₂ => r₁.nullable && r₂.nullable
  | .alt r₁ r₂ => r₁.nullable || r₂.nullable
  | .star _ => true

/-- Brzozowski derivative of a regex with respect to a first character. -/
def RE.deriv : RE → Nat → RE
  | .eps, _ => .fail
  | .fail, _ => .fail
  | .cls p, c => if p c then .eps else .fail
  | .cat r₁ r₂, c =>
      if r₁.nullable then .alt (.cat (r₁.deriv c) r₂) (r₂.deriv c)
      else .cat (r₁.deriv c) r₂
  | .alt r₁ r₂, c => .alt (r₁.deriv c) (r₂.deriv c)
  | .star r, c => .cat (r.deriv c) (.star r)

/-- Executable full-string matcher by repeated derivatives. -/
def RE.bmatch : RE → PyStr → Bool
  | r, [] => r.nullable
  | r, c :: s => (r.deriv c).bmatch s

/-!
The default identity grammar of `wsgiuser.py` (lines 32-59).  The Python
code builds a regex string; here the same construction is mirrored with
`RE` terms.  `[a-zA-Z0-9]`, `[\x80-\xff]`, `[.]`, `[@]`, `[-]` become
character classes; `%s(?:...)*`, `|`, `+`, `?` become `cat`/`star`/`alt`/
`rplus`/`ropt`.
-/

/-- The character class `[a-zA-Z0-9]` used in `rex_string` and
`rex_utf8_rtext`. -/
def alnumAscii (c : Nat) : Bool :=
  (0x41 ≤ c && c ≤ 0x5a) || (0x61 ≤ c && c ≤ 0x7a) || (0x30 ≤ c && c ≤ 0x39)

/-- `rex_char = '[\x80-\xff]'` (wsgiuser.py line 46). -/
def rex_char : RE := .cls (fun c => 0x80 ≤ c && c ≤ 0xff)

/-- `rex_string = '(?:(?:[a-zA-Z0-9]|%s)+)' % rex_char` (line 50). -/
def rex_string : RE := RE.rplus (.alt (.cls alnumAscii) rex_char)

/-- `rex_username = '(?:%s(?:[.]%s)*)' % (rex_string, rex_string)` (line 51). -/
def rex_username : RE :=
  .cat rex_string (.star (.cat (.cls (fun c => c == 0x2e)) rex_string))

/-- `rex_utf8_rtext = '(?:[a-zA-Z0-9]|%s)' % rex_char` (line 53). -/
def rex_utf8_rtext : RE := .alt (.cls alnumAscii) rex_char

/-- `rex_ldh_str = '(?:(?:%s|[-])*%s)' % (rex_utf8_rtext, rex_utf8_rtext)`
(line 54). -/
def rex_ldh_str : RE :=
  .cat (.star (.alt rex_utf8_rtext (.cls (fun c => c == 0x2d)))) rex_utf8_rtext

/-- `rex_label = '(?:%s(?:%s)*)' % (rex_utf8_rtext, rex_ldh_str)` (line 55). -/
def rex_label : RE := .cat rex_utf8_rtext (.star rex_ldh_str)

/-- `rex_realm = '(?:%s(?:[.]%s)+)' % (rex_label, rex_label)` (line 56). -/
def rex_realm : RE :=
  .cat rex_label (RE.rplus (.cat (.cls (fun c => c == 0x2e)) rex_label))

/-- `rex_nai = '(?:%s(?:[@]%s)?|[@]%s)' % (rex_username, rex_realm, rex_realm)`
(line 57). -/
def rex_nai : RE :=
  .alt (.cat rex_username (RE.ropt (.cat (.cls (fun c => c == 0x40)) rex_realm)))
       (.cat (.cls (fun c => c == 0x40)) rex_realm)

/-- Truthiness of `re.compile('^' + pat + '$').match(s)` in Python, for a
pattern `pat` that itself contains no anchors: the match is anchored at the
start by `.match` and `'^'`, while `'$'` matches either at the end of the
string or just before a single newline that ends the string.  So the call is
truthy exactly when `pat` matches all of `s`, or all of `s` minus one
trailing newline. -/
def matchLineAnchored (r : RE) (s : PyStr) : Bool :=
  r.bmatch s || (s.getLast? == some 0x0a && r.bmatch s.dropLast)

/-- `re_nai = re.compile('^%s$' % rex_nai)` used through `.match` (line 59):
the match predicate the middleware applies by default. -/
def re_nai_match (s : PyStr) : Bool := matchLineAnchored rex_nai s

/-!
`urllib.parse.unquote` (wsgiuser.py line 137 calls it with its default
arguments `encoding='utf-8', errors='replace'`).  CPython's `unquote`
splits the subject into runs of ASCII characters (literal non-ASCII
characters pass through untouched and delimit the runs), replaces each
`%XY` hex escape inside a run by the byte `0xXY` and each literal ASCII
character by its own byte, and decodes every byte run as UTF-8 with each
maximal invalid subpart replaced by one U+FFFD.  A `%` not followed by two
hex digits stays a literal `%` byte.  The embedding mirrors this with two
one-character-per-step scanners (so that all recursion is structural):
`pctLoop` turns the string into byte tokens (escapes and literal ASCII)
and char tokens (literal non-ASCII), and `utf8Loop` decodes maximal byte
runs.  The behaviour was checked against CPython on the test vectors at
the end of the section.
-/

/-- The value of a hex digit, as in CPython's `_hextobyte` table
(both cases accepted). -/
def hexDigitVal (c : Nat) : Option Nat :=
  if 0x30 ≤ c && c ≤ 0x39 then some (c - 0x30)
  else if 0x41 ≤ c && c ≤ 0x46 then some (c - 0x41 + 10)
  else if 0x61 ≤ c && c ≤ 0x66 then some (c - 0x61 + 10)
  else none

/-- One token of the percent-decoder: a byte destined for UTF-8 decoding,
or a literal non-ASCII character that passes through unchanged and closes
the current byte run. -/
inductive UTok where
  | byte : Nat → UTok
  | chr : Nat → UTok
deriving DecidableEq

/-- A literal character outside an escape: ASCII becomes a byte of the
current run, non-ASCII passes through. -/
def tokChr (c : Nat) : UTok := if c < 0x80 then .byte c else .chr c

/-- Scanner state for percent-escape removal: nothing pending, a pending
`%`, or a pending `%` plus one hex digit (value `d₁`, character `h₁`). -/
inductive PctSt where
  | normal : PctSt
  | sawPct : PctSt
  | sawPctHex : Nat → Nat → PctSt
deriving DecidableEq

/-- One step of escape removal.  A failed escape (`%` not followed by two
hex digits) emits the pending characters literally and rescans the current
character, exactly as CPython leaves `%` + the split-off item in place. -/
def pctStep : PctSt → Nat → List UTok × PctSt
  | .normal, c => if c == 0x25 then ([], .sawPct) else ([tokChr c], .normal)
  | .sawPct, c =>
      if c == 0x25 then ([.byte 0x25], .sawPct)
      else
        match hexDigitVal c with
        | some d => ([], .sawPctHex d c)
        | none => ([.byte 0x25, tokChr c], .normal)
  | .sawPctHex d₁ h₁, c =>
      match hexDigitVal c with
      | some d₂ => ([.byte (16 * d₁ + d₂)], .normal)
      | none =>
        if c == 0x25 then ([.byte 0x25, .byte h₁], .sawPct)
        else ([.byte 0x25, .byte h₁, tokChr c], .normal)

/-- Characters still pending at the end of the subject stay literal. -/
def pctFlush : PctSt → List UTok
  | .normal => []
  | .sawPct => [.byte 0x25]
  | .sawPctHex _ h₁ => [.byte 0x25, .byte h₁]

def pctLoop : PctSt → PyStr → List UTok
  | st, [] => pctFlush st
  | st, c :: rest => (pctStep st c).1 ++ pctLoop (pctStep st c).2 rest

/-- First pass of `unquote`: the token stream of the whole subject. -/
def pctTokenize (s : PyStr) : List UTok := pctLoop .normal s

/-- Is the byte a UTF-8 continuation byte `10xxxxxx`? -/
def isTail (b : Nat) : Bool := 0x80 ≤ b && b ≤ 0xbf

/-- Range of the second byte of a three-byte UTF-8 sequence, given the
lead byte (`E0 A0-BF`, `ED 80-9F`, otherwise `80-BF`). -/
def tail3Ok (b b₂ : Nat) : Bool :=
  if b == 0xe0 then 0xa0 ≤ b₂ && b₂ ≤ 0xbf
  else if b == 0xed then 0x80 ≤ b₂ && b₂ ≤ 0x9f
  else isTail b₂

/-- Range of the second byte of a four-byte UTF-8 sequence, given the
lead byte (`F0 90-BF`, `F4 80-8F`, otherwise `80-BF`). -/
def tail4Ok (b b₂ : Nat) : Bool :=
  if b == 0xf0 then 0x90 ≤ b₂ && b₂ ≤ 0xbf
  else if b == 0xf4 then 0x80 ≤ b₂ && b₂ ≤ 0x8f
  else isTail b₂

/-- UTF-8 decoder state: no sequence open, or an open sequence.
`needS3 b` / `needS4 b` remember the lead byte while its second byte (with
a lead-dependent range) is expected; `need2 acc` / `need1 acc` hold the
accumulated code-point bits while two / one plain continuation bytes are
expected. -/
inductive U8St where
  | start : U8St
  | needS3 : Nat → U8St
  | needS4 : Nat → U8St
  | need2 : Nat → U8St
  | need1 : Nat → U8St
deriving DecidableEq

/-- Classify a byte with no sequence open: ASCII is emitted, a valid lead
opens a sequence, anything else (stray continuation byte, `C0`/`C1`,
`F5`-`FF`) is one invalid subpart, replaced by U+FFFD. -/
def u8Start (b : Nat) : List Nat × U8St :=
  if b < 0x80 then ([b], .start)
  else if 0xc2 ≤ b && b ≤ 0xdf then ([], .need1 (b - 0xc0))
  else if 0xe0 ≤ b && b ≤ 0xef then ([], .needS3 b)
  else if 0xf0 ≤ b && b ≤ 0xf4 then ([], .needS4 b)
  else ([0xfffd], .start)

/-- One step of UTF-8 decoding with replacement: when a byte does not
continue the open sequence, the maximal valid subpart consumed so far is
replaced by one U+FFFD and the byte is rescanned from the start state. -/
def u8Step : U8St → Nat → List Nat × U8St
  | .start, b => u8Start b
  | .needS3 b, b₂ =>
      if tail3Ok b b₂ then ([], .need1 (0x40 * (b - 0xe0) + (b₂ - 0x80)))
      else ((0xfffd :: (u8Start b₂).1), (u8Start b₂).2)
  | .needS4 b, b₂ =>
      if tail4Ok b b₂ then ([], .need2 (0x40 * (b - 0xf0) + (b₂ - 0x80)))
      else ((0xfffd :: (u8Start b₂).1), (u8Start b₂).2)
  | .need2 acc, b₃ =>
      if isTail b₃ then ([], .need1 (0x40 * acc + (b₃ - 0x80)))
      else ((0xfffd :: (u8Start b₃).1), (u8Start b₃).2)
  | .need1 acc, b₄ =>
      if isTail b₄ then ([0x40 * acc + (b₄ - 0x80)], .start)
      else ((0xfffd :: (u8Start b₄).1), (u8Start b₄).2)

/-- A sequence still open at the end of the bytes is one invalid subpart. -/
def u8Flush : U8St → List Nat
  | .start => []
  | _ => [0xfffd]

def u8Loop : U8St → List Nat → List Nat
  | st, [] => u8Flush st
  | st, b :: rest => (u8Step st b).1 ++ u8Loop (u8Step st b).2 rest

/-- `bytes.decode('utf-8', errors='replace')` on a list of byte values. -/
def utf8DecodeReplace (bs : List Nat) : List Nat := u8Loop .start bs

/-- Second pass of `unquote`: decode each maximal byte run as UTF-8 with
replacement, pass char tokens through.  `acc` holds the bytes of the
current run in reverse order. -/
def unquoteAux : List UTok → List Nat → PyStr
  | [], acc => utf8DecodeReplace acc.reverse
  | .byte b :: rest, acc => unquoteAux rest (b :: acc)
  | .chr c :: rest, acc => utf8DecodeReplace acc.reverse ++ c :: unquoteAux rest []

/-- `urllib.parse.unquote` with its default UTF-8/replace behaviour. -/
def unquote (s : PyStr) : PyStr := unquoteAux (pctTokenize s) []

/-!
The WSGI middleware (`wsgiuser.py` lines 64-148).  The WSGI environ is an
association list with Python-dict lookup and assignment; the response-start
callback is embedded as a value of the inductive `Callback`, whose two
constructors are exactly the two callables the source can pass inward: the
server's `outer_resp` and the wrapper `_curried_add_vary(outer_resp)`.
A compiled middleware instance carries the truthiness of
`self.user_syntax.match` as a boolean predicate `user_match` (the default
instance uses `re_nai_match` above) and the `allow_empty` flag.
-/

abbrev Env := List (String × PyStr)

/-- `dict.get(key)`: the value stored for the key, if present. -/
def Env.get : Env → String → Option PyStr
  | [], _ => none
  | (k, v) :: rest, k' => if k' = k then some v else Env.get rest k'

/-- `dict[key] = value`: replace the entry for the key, or add it. -/
def Env.set : Env → String → PyStr → Env
  | [], k, v => [(k, v)]
  | (k', v') :: rest, k, v =>
      if k' = k then (k, v) :: rest else (k', v') :: Env.set rest k v

/-- Response-start callbacks reachable in the middleware: the outer
callback handed in by the server, or `_curried_add_vary` wrapped around a
callback (wsgiuser.py lines 64-68, 147). -/
inductive Callback where
  | outer : Callback
  | addVary : Callback → Callback
deriving DecidableEq

/-- Run a callback on a status line and header list, with `g` as the
behaviour of the server's `outer_resp`.  The result is the list of
invocations that reach `outer_resp` (its arguments, in order) paired with
the Python return value of the callback itself — `some r` for a value,
`none` for Python's `None`.  `_add_vary` (lines 65-67) appends
`('Vary','User')` to the header list, calls the wrapped callback, ignores
that call's value and falls off the end, returning `None`. -/
def Callback.run (g : String → List (String × String) → ρ) :
    Callback → String → List (String × String) → List (String × List (String × String)) × Option ρ
  | .outer, status, resphdrs => ([(status, resphdrs)], some (g status resphdrs))
  | .addVary cb, status, resphdrs =>
      ((Callback.run g cb status (resphdrs ++ [("Vary", "User")])).1, none)

/-- A middleware instance after `WSGI_User.__init__` (lines 91-116):
the syntax predicate (truthiness of `self.user_syntax.match`) and the
`allow_empty` flag.  `inner_app` is passed separately at the call sites so
that theorems can quantify over it. -/
structure WSGI_User where
  user_match : PyStr → Bool
  allow_empty : Bool

/-- The default instance `WSGI_User(inner_app)`: NAI syntax, empty values
allowed (lines 91, 110-111). -/
def defaultWSGIUser : WSGI_User := { user_match := re_nai_match, allow_empty := true }

/-- Lines 124-140 of `WSGI_User.__call__`: compute `local_user` from the
raw `User` header.  `None` means the header has no accepted identity. -/
def WSGI_User.local_user (self : WSGI_User) (outer_env : Env) : Option PyStr :=
  match Env.get outer_env "HTTP_USER" with
  | none => none
  | some user =>
    if user = [] then
      if self.allow_empty then some [] else none
    else if user.contains 0x3a then
      none
    else
      let lu := unquote user
      if self.user_match lu then some lu else none

/-- Lines 143, 145-146: the environ passed to the inner app — the outer
environ, with `LOCAL_USER` assigned when an identity was accepted. -/
def WSGI_User.inner_env (self : WSGI_User) (outer_env : Env) : Env :=
  match self.local_user outer_env with
  | some u => Env.set outer_env "LOCAL_USER" u
  | none => outer_env

/-- Lines 144-145, 147: the response callback passed to the inner app —
the outer callback, wrapped by `_curried_add_vary` when an identity was
accepted. -/
def WSGI_User.inner_resp (self : WSGI_User) (outer_env : Env) (outer_resp : Callback) :
    Callback :=
  match self.local_user outer_env with
  | some _ => Callback.addVary outer_resp
  | none => outer_resp

/-- Line 148: `return self.inner_app (inner_env, inner_resp)`. -/
def WSGI_User.call (self : WSGI_User) (inner_app : Env → Callback → ι)
    (outer_env : Env) (outer_resp : Callback) : ι :=
  inner_app (self.inner_env outer_env) (self.inner_resp outer_env outer_resp)

/-- Truthiness of a maximally permissive compiled pattern such as
`re.compile('(?s).')`: any non-empty string matches.  Used as the
caller-supplied grammar in the counterexamples about "any grammar". -/
def anyNonEmpty (s : PyStr) : Bool := !s.isEmpty

/-!
Machinery for claim C2: a decode failure (malformed escape or invalid
UTF-8 escape bytes) leaves a literal `%` or a U+FFFD in the decoded value,
and neither character can occur in a string accepted by the default
grammar, whose classes only cover ASCII alphanumerics, `[\x80-\xff]`,
`.`, `-` and `@`.
-/

/-- Every character class of the regex only admits characters with
property `P`. -/
def CharsBound (P : Nat → Prop) : RE → Prop
  | .eps => True
  | .fail => True
  | .cls q => ∀ c, q c = true → P c
  | .cat r₁ r₂ => CharsBound P r₁ ∧ CharsBound P r₂
  | .alt r₁ r₂ => CharsBound P r₁ ∧ CharsBound P r₂
  | .star r => CharsBound P r

/-- The alphabet of the default grammar: ASCII alphanumerics, high bytes,
and the separators `-`, `.`, `@`. -/
def naiAlphaB (c : Nat) : Bool :=
  alnumAscii c || (0x80 ≤ c && c ≤ 0xff) || c == 0x2d || c == 0x2e || c == 0x40

/-- Would strict UTF-8 decoding succeed?  Mirrors `u8Step`/`u8Flush`,
answering `false` exactly where they emit a U+FFFD. -/
def u8ValidLoop : U8St → List Nat → Bool
  | .start, [] => true
  | .needS3 _, [] => false
  | .needS4 _, [] => false
  | .need2 _, [] => false
  | .need1 _, [] => false
  | .start, b :: rest =>
      if b < 0x80 then u8ValidLoop .start rest
      else if 0xc2 ≤ b && b ≤ 0xdf then u8ValidLoop (.need1 (b - 0xc0)) rest
      else if 0xe0 ≤ b && b ≤ 0xef then u8ValidLoop (.needS3 b) rest
      else if 0xf0 ≤ b && b ≤ 0xf4 then u8ValidLoop (.needS4 b) rest
      else false
  | .needS3 l, b :: rest =>
      if tail3Ok l b then u8ValidLoop (.need1 (0x40 * (l - 0xe0) + (b - 0x80))) rest
      else false
  | .needS4 l, b :: rest =>
      if tail4Ok l b then u8ValidLoop (.need2 (0x40 * (l - 0xf0) + (b - 0x80))) rest
      else false
  | .need2 acc, b :: rest =>
      if isTail b then u8ValidLoop (.need1 (0x40 * acc + (b - 0x80))) rest
      else false
  | .need1 _, b :: rest =>
      if isTail b then u8ValidLoop .start rest
      else false

/-- Are all maximal byte runs of the token stream valid UTF-8?  Mirrors
`unquoteAux`. -/
def runsValid : List UTok → List Nat → Bool
  | [], acc => u8ValidLoop .start acc.reverse
  | .byte b :: rest, acc => runsValid rest (b :: acc)
  | .chr _ :: rest, acc => u8ValidLoop .start acc.reverse && runsValid rest []

/-- Are all `%` of the subject well-formed `%XY` hex escapes?  Mirrors
`pctStep`/`pctFlush`, answering `false` exactly where they emit a literal
`%` byte. -/
def escOkLoop : PctSt → PyStr → Bool
  | .normal, [] => true
  | .sawPct, [] => false
  | .sawPctHex _ _, [] => false
  | .normal, c :: rest =>
      if c == 0x25 then escOkLoop .sawPct rest else escOkLoop .normal rest
  | .sawPct, c :: rest =>
      if c == 0x25 then false
      else
        match hexDigitVal c with
        | some d => escOkLoop (.sawPctHex d c) rest
        | none => false
  | .sawPctHex _ _, c :: rest =>
      match hexDigitVal c with
      | some _ => escOkLoop .normal rest
      | none => false

/-- The spec's decode-failure test: percent-decoding `s` "fails" when it
has a malformed percent-escape or when the escape byte runs are not valid
UTF-8 (CPython's `unquote` itself never raises — it leaves `%` literal
and substitutes U+FFFD). -/
def decodeOk (s : PyStr) : Bool := escOkLoop .normal s && runsValid (pctTokenize s) []

/-- Dot-joining of a list of labels: `l₀.l₁.….lₙ`. -/
def sepJoin (a : Nat) : List PyStr → PyStr
  | [] => []
  | [l] => l
  | l :: ls => l ++ a :: sepJoin a ls

/-- The username character class: ASCII alphanumeric or high byte. -/
def userCharB (c : Nat) : Bool := alnumAscii c || (0x80 ≤ c && c ≤ 0xff)

/-- Label characters of a realm label: username characters plus `-`. -/
def ldhCharB (c : Nat) : Bool := userCharB c || c == 0x2d

/-- A realm label: non-empty, over letters/digits/high bytes/hyphens, and
beginning and ending with a non-hyphen. -/
def labelOk (l : PyStr) : Prop :=
  l ≠ [] ∧ (∀ c ∈ l, ldhCharB c = true) ∧
  (∀ c, l.head? = some c → userCharB c = true) ∧
  (∀ c, l.getLast? = some c → userCharB c = true)

/-- A username: one or more dot-separated non-empty labels of username
characters. -/
def usernameOk (u : PyStr) : Prop :=
  ∃ ls, ls ≠ [] ∧ (∀ l ∈ ls, l ≠ [] ∧ ∀ c ∈ l, userCharB c = true) ∧ u = sepJoin 0x2e ls

/-- A realm: two or more dot-separated realm labels. -/
def realmOk (r : PyStr) : Prop :=
  ∃ ls, 2 ≤ ls.length ∧ (∀ l ∈ ls, labelOk l) ∧ r = sepJoin 0x2e ls

/-- Spec side, claim C6: a username character is drawn from `A-Z`, `a-z`,
`0-9` or any byte ≥ 0x80. -/
def specUserChar (c : Nat) : Prop :=
  (0x41 ≤ c ∧ c ≤ 0x5a) ∨ (0x61 ≤ c ∧ c ≤ 0x7a) ∨ (0x30 ≤ c ∧ c ≤ 0x39) ∨
  (0x80 ≤ c ∧ c ≤ 0xff)

/-- Spec side: a username label is one or more username characters. -/
def specUserLabel (l : PyStr) : Prop := l ≠ [] ∧ ∀ c ∈ l, specUserChar c

/-- Spec side: a username is one or more dot-separated labels. -/
def specUsername (u : PyStr) : Prop :=
  ∃ ls, ls ≠ [] ∧ (∀ l ∈ ls, specUserLabel l) ∧ u = sepJoin 0x2e ls

/-- Spec side: a realm label starts and ends with an
alphanumeric-or-high-byte character; interior characters may additionally
include `-`. -/
def specRealmLabel (l : PyStr) : Prop :=
  l ≠ [] ∧ (∀ c ∈ l, specUserChar c ∨ c = 0x2d) ∧
  (∀ c, l.head? = some c → specUserChar c) ∧
  (∀ c, l.getLast? = some c → specUserChar c)

/-- Spec side: a realm is two or more dot-separated realm labels. -/
def specRealm (r : PyStr) : Prop :=
  ∃ ls, 2 ≤ ls.length ∧ (∀ l ∈ ls, specRealmLabel l) ∧ r = sepJoin 0x2e ls

/-- Spec side, the full grammar of claim C6: a username optionally
followed by `@realm`, or a bare `@realm`. -/
def specNai (s : PyStr) : Prop :=
  (∃ u, specUsername u ∧ (s = u ∨ ∃ r, specRealm r ∧ s = u ++ 0x40 :: r)) ∨
  (∃ r, specRealm r ∧ s = 0x40 :: r)

/-!
Machinery for claim C7.  Percent-encoding is not part of the repository
(the sender of the header performs it); it is modelled from the spec's
"percent-encoding it": UTF-8 encode the string and write every byte as an
uppercase `%XY` escape.
-/

/-- Modelled from the spec: UTF-8 encoding of one code point. -/
def utf8EncodeChar (c : Nat) : List Nat :=
  if c < 0x80 then [c]
  else if c < 0x800 then [0xc0 + c / 0x40, 0x80 + c % 0x40]
  else if c < 0x10000 then
    [0xe0 + c / 0x1000, 0x80 + (c / 0x40) % 0x40, 0x80 + c % 0x40]
  else
    [0xf0 + c / 0x40000, 0x80 + (c / 0x1000) % 0x40, 0x80 + (c / 0x40) % 0x40,
     0x80 + c % 0x40]

/-- Uppercase hex digit character. -/
def hexChar (d : Nat) : Nat := if d < 10 then 0x30 + d else 0x37 + d

/-- `%XY` escape of one byte. -/
def pctEncodeByte (b : Nat) : List Nat := [0x25, hexChar (b / 16), hexChar (b % 16)]

/-- Modelled from the spec: percent-encoding a string — UTF-8 bytes, every
byte escaped. -/
def pctEncode (s : PyStr) : PyStr :=
  (((s.map utf8EncodeChar).flatten).map pctEncodeByte).flatten

/-!
Theorems.
-/

theorem RE.cat_inv {r₁ r₂ : RE} {s : PyStr} (h : RE.Matches (.cat r₁ r₂) s) :
    ∃ s₁ s₂, s = s₁ ++ s₂ ∧ RE.Matches r₁ s₁ ∧ RE.Matches r₂ s₂ := by
  cases h with
  | catI h₁ h₂ => exact ⟨_, _, rfl, h₁, h₂⟩

theorem RE.alt_inv {r₁ r₂ : RE} {s : PyStr} (h : RE.Matches (.alt r₁ r₂) s) :
    RE.Matches r₁ s ∨ RE.Matches r₂ s := by
  cases h with
  | altL h => exact Or.inl h
  | altR h => exact Or.inr h

theorem RE.cls_inv {p : Nat → Bool} {s : PyStr} (h : RE.Matches (.cls p) s) :
    ∃ c, s = [c] ∧ p c = true := by
  cases h with
  | cls hp => exact ⟨_, rfl, hp⟩

theorem RE.nullable_iff (r : RE) : r.nullable = true ↔ RE.Matches r [] := by
  induction r with
  | eps => simpa [RE.nullable] using RE.Matches.eps
  | fail =>
    simp only [RE.nullable, Bool.false_eq_true, false_iff]
    intro h; cases h
  | cls p =>
    simp only [RE.nullable, Bool.false_eq_true, false_iff]
    intro h; cases h
  | cat r₁ r₂ ih₁ ih₂ =>
    simp only [RE.nullable, Bool.and_eq_true, ih₁, ih₂]
    constructor
    · rintro ⟨h₁, h₂⟩
      have := RE.Matches.catI h₁ h₂
      simpa using this
    · intro h
      obtain ⟨s₁, s₂, heq, h₁, h₂⟩ := RE.cat_inv h
      obtain ⟨hs₁, hs₂⟩ := List.append_eq_nil.mp heq.symm
      exact ⟨hs₁ ▸ h₁, hs₂ ▸ h₂⟩
  | alt r₁ r₂ ih₁ ih₂ =>
    simp only [RE.nullable, Bool.or_eq_true, ih₁, ih₂]
    constructor
    · rintro (h | h)
      · exact RE.Matches.altL h
      · exact RE.Matches.altR h
    · intro h
      cases h with
      | altL h => exact Or.inl h
      | altR h => exact Or.inr h
  | star r _ =>
    simpa [RE.nullable] using RE.Matches.starNil

theorem RE.deriv_sound (r : RE) (c : Nat) :
    ∀ s, RE.Matches (r.deriv c) s → RE.Matches r (c :: s) := by
  induction r with
  | eps => intro s h; cases h
  | fail => intro s h; cases h
  | cls p =>
    intro s h
    by_cases hp : p c = true
    · simp only [RE.deriv, hp, if_true] at h
      cases h
      exact RE.Matches.cls hp
    · simp only [RE.deriv, hp, if_false, Bool.false_eq_true] at h
      cases h
  | cat r₁ r₂ ih₁ ih₂ =>
    intro s h
    by_cases hn : r₁.nullable = true
    · simp only [RE.deriv, hn, if_true] at h
      cases h with
      | altL h =>
        cases h with
        | catI h₁ h₂ =>
          have := RE.Matches.catI (ih₁ _ h₁) h₂
          simpa using this
      | altR h =>
        have h₁ : RE.Matches r₁ [] := (RE.nullable_iff r₁).mp hn
        have := RE.Matches.catI h₁ (ih₂ _ h)
        simpa using this
    · simp only [RE.deriv, hn, if_false] at h
      cases h with
      | catI h₁ h₂ =>
        have := RE.Matches.catI (ih₁ _ h₁) h₂
        simpa using this
  | alt r₁ r₂ ih₁ ih₂ =>
    intro s h
    cases h with
    | altL h => exact RE.Matches.altL (ih₁ _ h)
    | altR h => exact RE.Matches.altR (ih₂ _ h)
  | star r ih =>
    intro s h
    cases h with
    | catI h₁ h₂ =>
      have := RE.Matches.starCons (ih _ h₁) h₂
      simpa using this

theorem RE.deriv_complete {r : RE} {t : PyStr} (h : RE.Matches r t) :
    ∀ c s, t = c :: s → RE.Matches (r.deriv c) s := by
  induction h with
  | eps => intro c s h; cases h
  | cls hp =>
    intro c s h
    rename_i p c'
    cases h
    simp only [RE.deriv, hp, if_true]
    exact RE.Matches.eps
  | catI h₁ h₂ ih₁ ih₂ =>
    intro c s h
    rename_i r₁ r₂ s₁ s₂
    cases s₁ with
    | nil =>
      simp only [List.nil_append] at h
      have hn : r₁.nullable = true := (RE.nullable_iff r₁).mpr h₁
      simp only [RE.deriv, hn, if_true]
      exact RE.Matches.altR (ih₂ c s h)
    | cons c₁ s₁' =>
      simp only [List.cons_append, List.cons.injEq] at h
      obtain ⟨hc, hs⟩ := h
      subst hc
      have hd₁ : RE.Matches (r₁.deriv c₁) s₁' := ih₁ c₁ s₁' rfl
      have hcat : RE.Matches (.cat (r₁.deriv c₁) r₂) (s₁' ++ s₂) :=
        RE.Matches.catI hd₁ h₂
      by_cases hn : r₁.nullable = true
      · simp only [RE.deriv, hn, if_true]
        exact hs ▸ RE.Matches.altL hcat
      · simp only [RE.deriv, hn, if_false]
        exact hs ▸ hcat
  | altL h ih =>
    intro c s hcs
    exact RE.Matches.altL (ih c s hcs)
  | altR h ih =>
    intro c s hcs
    exact RE.Matches.altR (ih c s hcs)
  | starNil => intro c s h; cases h
  | starCons h₁ h₂ ih₁ ih₂ =>
    intro c s h
    rename_i r s₁ s₂
    cases s₁ with
    | nil =>
      simp only [List.nil_append] at h
      exact ih₂ c s h
    | cons c₁ s₁' =>
      simp only [List.cons_append, List.cons.injEq] at h
      obtain ⟨hc, hs⟩ := h
      subst hc
      have hd₁ : RE.Matches (r.deriv c₁) s₁' := ih₁ c₁ s₁' rfl
      simp only [RE.deriv]
      exact hs ▸ RE.Matches.catI hd₁ h₂

theorem RE.bmatch_iff (s : PyStr) : ∀ r : RE, r.bmatch s = true ↔ RE.Matches r s := by
  induction s with
  | nil => intro r; exact RE.nullable_iff r
  | cons c s ih =>
    intro r
    simp only [RE.bmatch, ih]
    constructor
    · exact RE.deriv_sound r c s
    · intro h; exact RE.deriv_complete h c s rfl

example : rex_nai.bmatch [0x6a, 0x6f, 0x68, 0x6e] = true := by decide

example : rex_nai.bmatch [0x6a, 0x6f, 0x68, 0x6e, 0x0a] = false := by decide

example : re_nai_match [0x6a, 0x6f, 0x68, 0x6e, 0x0a] = true := by decide

example : rex_nai.bmatch [0x40, 0x61, 0x2e, 0x62] = true := by decide

example : rex_nai.bmatch [0x61, 0x40, 0x62] = false := by decide

example : rex_nai.bmatch [0x61, 0x40, 0x62, 0x2e, 0x63] = true := by decide

example : rex_nai.bmatch [] = false := by decide

example : rex_nai.bmatch [0x61, 0x2d, 0x62] = false := by decide

example : rex_nai.bmatch [0x40, 0x61, 0x2d, 0x62, 0x2e, 0x63] = true := by decide

example : rex_nai.bmatch [0x40, 0x2d, 0x61, 0x2e, 0x63] = false := by decide

example : unquote [0x6a, 0x25, 0x63, 0x33, 0x25, 0x62, 0x38, 0x68, 0x6e] =
    [0x6a, 0xf8, 0x68, 0x6e] := by decide

example : unquote [0x6a, 0x25, 0x63, 0x25, 0x33, 0x62, 0x38, 0x68, 0x6e] =
    [0x6a, 0x25, 0x63, 0x3b, 0x38, 0x68, 0x6e] := by decide

example : unquote
      [0x6a, 0x25, 0x63, 0x33, 0x25, 0x62, 0x38, 0x25, 0x62, 0x38, 0x68, 0x6e] =
    [0x6a, 0xf8, 0xfffd, 0x68, 0x6e] := by decide

example : unquote [0x6a, 0x6f, 0x68, 0x6e] = [0x6a, 0x6f, 0x68, 0x6e] := by decide

example : unquote [0x25, 0x25, 0x34, 0x31] = [0x25, 0x41] := by decide

example : unquote [0x25, 0x65, 0x32, 0x25, 0x38, 0x32, 0x25, 0x61, 0x63] =
    [0x20ac] := by decide

example : unquote [0x61, 0x25, 0x33, 0x61, 0x62] = [0x61, 0x3a, 0x62] := by decide

example : unquote [0x25, 0x43, 0x33, 0xf8] = [0xfffd, 0xf8] := by decide

example : unquote [0x25, 0x34, 0xf8] = [0x25, 0x34, 0xf8] := by decide

example : unquote [0x25, 0x63, 0xf8] = [0x25, 0x63, 0xf8] := by decide

example : unquote [0x25, 0x34, 0x25, 0x33, 0x31] = [0x25, 0x34, 0x31] := by decide

example : unquote [0x25, 0x65, 0x30, 0x25, 0x39, 0x66, 0x25, 0x38, 0x30] =
    [0xfffd, 0xfffd, 0xfffd] := by decide

example : unquote [0x25, 0x63, 0x32, 0x25, 0x63, 0x32, 0x25, 0x38, 0x30] =
    [0xfffd, 0x80] := by decide

example : unquote [0x25, 0x63, 0x33, 0x61, 0x25, 0x62, 0x38] =
    [0xfffd, 0x61, 0xfffd] := by decide

example : unquote [0x25, 0x63, 0x33, 0xf8, 0x25, 0x62, 0x38] =
    [0xfffd, 0xf8, 0xfffd] := by decide

example : unquote [0x78, 0x25, 0x66, 0x30, 0x25, 0x39, 0x30, 0x25, 0x38, 0x30, 0x79] =
    [0x78, 0xfffd, 0x79] := by decide

example : unquote [0x6a, 0x6f, 0x68, 0x6e, 0x25, 0x30, 0x61] =
    [0x6a, 0x6f, 0x68, 0x6e, 0x0a] := by decide

example : unquote [0x25, 0x32, 0x35] = [0x25] := by decide

example : WSGI_User.local_user defaultWSGIUser [("HTTP_USER", [0x6a, 0x6f, 0x68, 0x6e])] =
    some [0x6a, 0x6f, 0x68, 0x6e] := by decide

example : WSGI_User.local_user defaultWSGIUser [("HTTP_USER", [])] = some [] := by decide

example : WSGI_User.local_user { defaultWSGIUser with allow_empty := false }
    [("HTTP_USER", [])] = none := by decide

example : WSGI_User.local_user defaultWSGIUser
    [("HTTP_USER", [0x6a, 0x25, 0x63, 0x33, 0x25, 0x62, 0x38, 0x68, 0x6e])] =
    some [0x6a, 0xf8, 0x68, 0x6e] := by decide

example : WSGI_User.local_user defaultWSGIUser
    [("HTTP_USER", [0x6a, 0x25, 0x63, 0x25, 0x33, 0x62, 0x38, 0x68, 0x6e])] = none := by decide

example : WSGI_User.local_user defaultWSGIUser
    [("HTTP_USER", [0x6a, 0x25, 0x63, 0x33, 0x25, 0x62, 0x38, 0x25, 0x62, 0x38, 0x68, 0x6e])] =
    none := by decide

example : WSGI_User.local_user defaultWSGIUser [("HTTP_USER", [0x61, 0x3a, 0x62])] =
    none := by decide

example : WSGI_User.local_user defaultWSGIUser [] = none := by decide

theorem Env.get_set (e : Env) (k k' : String) (v : PyStr) :
    Env.get (Env.set e k v) k' = if k' = k then some v else Env.get e k' := by
  induction e with
  | nil => simp [Env.set, Env.get]
  | cons kv rest ih =>
    obtain ⟨k₁, v₁⟩ := kv
    by_cases h₁ : k₁ = k
    · subst h₁
      simp only [Env.set, if_pos rfl, Env.get]
      by_cases h₂ : k' = k₁ <;> simp [h₂]
    · simp only [Env.set, if_neg h₁, Env.get, ih]
      by_cases h₂ : k' = k₁
      · have h₃ : ¬k' = k := by rw [h₂]; exact fun h => h₁ h
        simp [h₂, h₃, h₁]
      · simp [h₂]

/-- Claim C1: the middleware stores the `LOCAL_USER` identity into the
environ if and only if it wraps the response callback with the
`('Vary','User')`-appending wrapper; both effects are driven by the single
`local_user is not None` test, so they happen together or not at all. -/
theorem claim_C1_identity_and_vary_together (self : WSGI_User) (env : Env) (cb : Callback) :
    (∃ u, self.local_user env = some u ∧
        self.inner_env env = Env.set env "LOCAL_USER" u ∧
        self.inner_resp env cb = Callback.addVary cb) ∨
    (self.local_user env = none ∧
        self.inner_env env = env ∧ self.inner_resp env cb = cb) := by
  cases h : self.local_user env with
  | none =>
    exact Or.inr ⟨rfl, by simp [WSGI_User.inner_env, h], by simp [WSGI_User.inner_resp, h]⟩
  | some u =>
    exact Or.inl ⟨u, rfl, by simp [WSGI_User.inner_env, h], by simp [WSGI_User.inner_resp, h]⟩

/-- Claim C4: a raw `User` header containing a literal colon is rejected
before any decoding, for every configuration: no identity, the environ and
the callback are passed through unchanged. -/
theorem claim_C4_colon_rejected (self : WSGI_User) (env : Env) (cb : Callback) (u : PyStr)
    (hget : Env.get env "HTTP_USER" = some u) (hc : u.contains 0x3a = true) :
    self.local_user env = none ∧
    self.inner_env env = env ∧ self.inner_resp env cb = cb := by
  have hne : u ≠ [] := by
    intro h
    subst h
    simp [List.contains] at hc
  have hloc : self.local_user env = none := by
    unfold WSGI_User.local_user
    rw [hget]
    dsimp only
    rw [if_neg hne, if_pos hc]
  exact ⟨hloc, by simp [WSGI_User.inner_env, hloc], by simp [WSGI_User.inner_resp, hloc]⟩

theorem claim_C4_witness :
    WSGI_User.local_user defaultWSGIUser [("HTTP_USER", [0x61, 0x3a, 0x62])] = none ∧
    WSGI_User.inner_env defaultWSGIUser [("HTTP_USER", [0x61, 0x3a, 0x62])] =
      [("HTTP_USER", [0x61, 0x3a, 0x62])] ∧
    WSGI_User.inner_resp defaultWSGIUser [("HTTP_USER", [0x61, 0x3a, 0x62])]
      Callback.outer = Callback.outer :=
  claim_C4_colon_rejected defaultWSGIUser [("HTTP_USER", [0x61, 0x3a, 0x62])]
    Callback.outer [0x61, 0x3a, 0x62] (by decide) (by decide)

/-- Claim C5: for a present-but-empty `User` header the `allow_empty` flag
alone decides, whatever the grammar: `true` stores the empty identity and
wraps the callback, `false` leaves both untouched. -/
theorem claim_C5_empty_policy (f : PyStr → Bool) (ae : Bool) (env : Env) (cb : Callback)
    (hget : Env.get env "HTTP_USER" = some []) :
    WSGI_User.local_user ⟨f, ae⟩ env = (if ae then some [] else none) ∧
    WSGI_User.inner_env ⟨f, ae⟩ env = (if ae then Env.set env "LOCAL_USER" [] else env) ∧
    WSGI_User.inner_resp ⟨f, ae⟩ env cb = (if ae then Callback.addVary cb else cb) := by
  have hloc : WSGI_User.local_user ⟨f, ae⟩ env = (if ae then some [] else none) := by
    unfold WSGI_User.local_user
    rw [hget]
    simp
  refine ⟨hloc, ?_, ?_⟩ <;> cases ae <;>
    simp_all [WSGI_User.inner_env, WSGI_User.inner_resp]

theorem claim_C5_witness :
    WSGI_User.local_user ⟨re_nai_match, true⟩ [("HTTP_USER", [])] =
      (if true then some [] else none) ∧
    WSGI_User.inner_env ⟨re_nai_match, true⟩ [("HTTP_USER", [])] =
      (if true then Env.set [("HTTP_USER", [])] "LOCAL_USER" [] else [("HTTP_USER", [])]) ∧
    WSGI_User.inner_resp ⟨re_nai_match, true⟩ [("HTTP_USER", [])] Callback.outer =
      (if true then Callback.addVary Callback.outer else Callback.outer) :=
  claim_C5_empty_policy re_nai_match true [("HTTP_USER", [])] Callback.outer (by decide)

/-- Claim C9: the colon filter looks only at the raw header.  With a
permissive grammar (any non-empty string), the raw value `a%3ab` — which
has no literal colon — is accepted, and the decoded identity `a:b`,
containing a colon, is stored and the callback is wrapped. -/
theorem claim_C9_escaped_colon_accepted :
    List.contains [0x61, 0x25, 0x33, 0x61, 0x62] 0x3a = false ∧
    WSGI_User.local_user ⟨anyNonEmpty, true⟩ [("HTTP_USER", [0x61, 0x25, 0x33, 0x61, 0x62])] =
      some [0x61, 0x3a, 0x62] ∧
    List.contains [0x61, 0x3a, 0x62] 0x3a = true ∧
    WSGI_User.inner_env ⟨anyNonEmpty, true⟩ [("HTTP_USER", [0x61, 0x25, 0x33, 0x61, 0x62])] =
      [("HTTP_USER", [0x61, 0x25, 0x33, 0x61, 0x62]), ("LOCAL_USER", [0x61, 0x3a, 0x62])] := by
  decide

/-- Claim C10: `_curried_add_vary(outer_resp)` appends `('Vary','User')`
to the header list, invokes the wrapped callback exactly once with that
list, and returns `None`, discarding whatever the callback returned. -/
theorem claim_C10_add_vary_wrapper {ρ : Type} (g : String → List (String × String) → ρ)
    (status : String) (resphdrs : List (String × String)) :
    Callback.run g (Callback.addVary Callback.outer) status resphdrs =
      ([(status, resphdrs ++ [("Vary", "User")])], none) := by
  simp [Callback.run]

/-- Claim C3: the syntax check is not fully anchored.  `re_nai` accepts
`"john\n"` because Python's `$` also matches just before a string-final
newline, so the default middleware, given the header `john%0a`, stores
`"john\n"` — newline included — as `LOCAL_USER` and wraps the callback. -/
theorem claim_C3_trailing_newline_stored :
    re_nai_match [0x6a, 0x6f, 0x68, 0x6e, 0x0a] = true ∧
    rex_nai.bmatch [0x6a, 0x6f, 0x68, 0x6e, 0x0a] = false ∧
    WSGI_User.local_user defaultWSGIUser
      [("HTTP_USER", [0x6a, 0x6f, 0x68, 0x6e, 0x25, 0x30, 0x61])] =
      some [0x6a, 0x6f, 0x68, 0x6e, 0x0a] ∧
    WSGI_User.inner_resp defaultWSGIUser
      [("HTTP_USER", [0x6a, 0x6f, 0x68, 0x6e, 0x25, 0x30, 0x61])] Callback.outer =
      Callback.addVary Callback.outer := by
  decide

/-- Claim C8, counterexample to the claim as stated: when the incoming
environ already has a `LOCAL_USER` entry, an accepted header overwrites
it, so the middleware does alter an existing entry. -/
theorem claim_C8_counterexample :
    Env.get (WSGI_User.inner_env defaultWSGIUser
        [("HTTP_USER", [0x6a, 0x6f, 0x68, 0x6e]), ("LOCAL_USER", [0x61])]) "LOCAL_USER" ≠
    Env.get [("HTTP_USER", [0x6a, 0x6f, 0x68, 0x6e]), ("LOCAL_USER", [0x61])] "LOCAL_USER" := by
  decide

/-- Claim C8 (amended): the middleware touches no key other than
`LOCAL_USER` — in particular `HTTP_USER` stays as received — it removes
nothing, and the inner handler's result is returned verbatim. -/
theorem claim_C8_frame (self : WSGI_User) (env : Env) (cb : Callback)
    {ι : Type} (inner_app : Env → Callback → ι) :
    self.call inner_app env cb =
      inner_app (self.inner_env env) (self.inner_resp env cb) ∧
    (∀ k, k ≠ "LOCAL_USER" → Env.get (self.inner_env env) k = Env.get env k) ∧
    Env.get (self.inner_env env) "HTTP_USER" = Env.get env "HTTP_USER" ∧
    (∀ k v, Env.get env k = some v → ∃ w, Env.get (self.inner_env env) k = some w) := by
  have hother : ∀ k, k ≠ "LOCAL_USER" → Env.get (self.inner_env env) k = Env.get env k := by
    intro k hk
    cases h : self.local_user env with
    | none => simp [WSGI_User.inner_env, h]
    | some u => simp [WSGI_User.inner_env, h, Env.get_set, hk]
  refine ⟨rfl, hother, hother "HTTP_USER" (by decide), ?_⟩
  intro k v hv
  by_cases hk : k = "LOCAL_USER"
  · subst hk
    cases h : self.local_user env with
    | none => exact ⟨v, by simpa [WSGI_User.inner_env, h] using hv⟩
    | some u => exact ⟨u, by simp [WSGI_User.inner_env, h, Env.get_set]⟩
  · exact ⟨v, by rw [hother k hk]; exact hv⟩

theorem claim_C8_frame_witness :
    Env.get (WSGI_User.inner_env defaultWSGIUser
        [("HTTP_USER", [0x6a]), ("X", [0x79])]) "X" =
      Env.get [("HTTP_USER", [0x6a]), ("X", [0x79])] "X" :=
  (claim_C8_frame defaultWSGIUser [("HTTP_USER", [0x6a]), ("X", [0x79])]
    Callback.outer (fun e c => (e, c))).2.1 "X" (by decide)

/-- Claim C2, counterexample to the claim as stated: under a permissive
caller-supplied grammar, a header with a malformed percent-escape is not
rejected — `unquote` never raises, it leaves the `%` literal, and the
permissive grammar then accepts the decoded value, so an identity is
stored and the callback is wrapped. -/
theorem claim_C2_counterexample :
    WSGI_User.local_user ⟨anyNonEmpty, true⟩
      [("HTTP_USER", [0x6a, 0x25, 0x63, 0x25, 0x33, 0x62, 0x38, 0x68, 0x6e])] =
      some [0x6a, 0x25, 0x63, 0x3b, 0x38, 0x68, 0x6e] ∧
    WSGI_User.inner_resp ⟨anyNonEmpty, true⟩
      [("HTTP_USER", [0x6a, 0x25, 0x63, 0x25, 0x33, 0x62, 0x38, 0x68, 0x6e])] Callback.outer =
      Callback.addVary Callback.outer := by
  decide

theorem charsBound_mem {P : Nat → Prop} : ∀ {r : RE} {s : PyStr}, RE.Matches r s →
    CharsBound P r → ∀ c, c ∈ s → P c := by
  intro r s h
  induction h with
  | eps => intro _ c hc; cases hc
  | cls hp =>
    intro hb c hc
    rw [List.mem_singleton] at hc
    subst hc
    exact hb _ hp
  | catI h₁ h₂ ih₁ ih₂ =>
    intro hb c hc
    rcases List.mem_append.mp hc with h | h
    · exact ih₁ hb.1 c h
    · exact ih₂ hb.2 c h
  | altL h ih => intro hb c hc; exact ih hb.1 c hc
  | altR h ih => intro hb c hc; exact ih hb.2 c hc
  | starNil => intro _ c hc; cases hc
  | starCons h₁ h₂ ih₁ ih₂ =>
    intro hb c hc
    rcases List.mem_append.mp hc with h | h
    · exact ih₁ hb c h
    · exact ih₂ hb c h

theorem naiAlpha_of_alnum : CharsBound (fun c => naiAlphaB c = true) (.cls alnumAscii) :=
  fun c h => by simp [naiAlphaB, h]

theorem naiAlpha_of_char : CharsBound (fun c => naiAlphaB c = true) rex_char :=
  fun c h => by simp [naiAlphaB, h]

theorem naiAlpha_of_dot : CharsBound (fun c => naiAlphaB c = true) (.cls (fun c => c == 0x2e)) :=
  fun c h => by
    rw [beq_iff_eq] at h
    subst h
    decide

theorem naiAlpha_of_dash : CharsBound (fun c => naiAlphaB c = true) (.cls (fun c => c == 0x2d)) :=
  fun c h => by
    rw [beq_iff_eq] at h
    subst h
    decide

theorem naiAlpha_of_at : CharsBound (fun c => naiAlphaB c = true) (.cls (fun c => c == 0x40)) :=
  fun c h => by
    rw [beq_iff_eq] at h
    subst h
    decide

theorem rex_string_bound : CharsBound (fun c => naiAlphaB c = true) rex_string :=
  ⟨⟨naiAlpha_of_alnum, naiAlpha_of_char⟩, naiAlpha_of_alnum, naiAlpha_of_char⟩

theorem rex_username_bound : CharsBound (fun c => naiAlphaB c = true) rex_username :=
  ⟨rex_string_bound, naiAlpha_of_dot, rex_string_bound⟩

theorem rex_rtext_bound : CharsBound (fun c => naiAlphaB c = true) rex_utf8_rtext :=
  ⟨naiAlpha_of_alnum, naiAlpha_of_char⟩

theorem rex_label_bound : CharsBound (fun c => naiAlphaB c = true) rex_label :=
  ⟨rex_rtext_bound, ⟨rex_rtext_bound, naiAlpha_of_dash⟩, rex_rtext_bound⟩

theorem rex_realm_bound : CharsBound (fun c => naiAlphaB c = true) rex_realm :=
  ⟨rex_label_bound, ⟨naiAlpha_of_dot, rex_label_bound⟩, naiAlpha_of_dot, rex_label_bound⟩

theorem rex_nai_bound : CharsBound (fun c => naiAlphaB c = true) rex_nai :=
  ⟨⟨rex_username_bound, ⟨naiAlpha_of_at, rex_realm_bound⟩, trivial⟩,
   naiAlpha_of_at, rex_realm_bound⟩

theorem re_nai_match_alpha {s : PyStr} (h : re_nai_match s = true) :
    ∀ c ∈ s, naiAlphaB c = true ∨ c = 0x0a := by
  unfold re_nai_match matchLineAnchored at h
  rw [Bool.or_eq_true] at h
  rcases h with h₁ | h₂
  · intro c hc
    exact Or.inl (charsBound_mem ((RE.bmatch_iff s rex_nai).mp h₁) rex_nai_bound c hc)
  · rw [Bool.and_eq_true] at h₂
    obtain ⟨hlast, hmatch⟩ := h₂
    rw [beq_iff_eq] at hlast
    have hne : s ≠ [] := by
      intro he
      rw [he] at hlast
      cases hlast
    have hg : s.getLast hne = 0x0a := by
      have h₃ := List.getLast?_eq_getLast s hne
      rw [hlast] at h₃
      exact (Option.some.inj h₃).symm
    have hdec : s.dropLast ++ [0x0a] = s := by
      have h₄ := List.dropLast_append_getLast hne
      rwa [hg] at h₄
    intro c hc
    rw [← hdec] at hc
    rcases List.mem_append.mp hc with h | h
    · exact Or.inl (charsBound_mem ((RE.bmatch_iff _ rex_nai).mp hmatch) rex_nai_bound c h)
    · exact Or.inr (List.mem_singleton.mp h)

theorem re_nai_match_false_of_badchar {s : PyStr} {c : Nat} (hc : c ∈ s)
    (hbad : naiAlphaB c = false) (hnl : c ≠ 0x0a) : re_nai_match s = false := by
  by_contra h
  rw [Bool.not_eq_false] at h
  rcases re_nai_match_alpha h c hc with h' | h'
  · rw [h'] at hbad
    cases hbad
  · exact hnl h'

example : decodeOk [0x6a, 0x25, 0x63, 0x25, 0x33, 0x62, 0x38, 0x68, 0x6e] = false := by decide

example : decodeOk
    [0x6a, 0x25, 0x63, 0x33, 0x25, 0x62, 0x38, 0x25, 0x62, 0x38, 0x68, 0x6e] = false := by decide

example : decodeOk [0x6a, 0x25, 0x63, 0x33, 0x25, 0x62, 0x38, 0x68, 0x6e] = true := by decide

example : decodeOk [0x6a, 0x6f, 0x68, 0x6e] = true := by decide

theorem isTail_ascii {b : Nat} (hb : b < 0x80) : isTail b = false := by
  unfold isTail
  have h : ¬(0x80 ≤ b) := by omega
  simp [h]

theorem tail3Ok_ascii {l b : Nat} (hb : b < 0x80) : tail3Ok l b = false := by
  unfold tail3Ok
  have h₁ : ¬(0xa0 ≤ b) := by omega
  have h₂ : ¬(0x80 ≤ b) := by omega
  split_ifs <;> simp [isTail, h₁, h₂]

theorem tail4Ok_ascii {l b : Nat} (hb : b < 0x80) : tail4Ok l b = false := by
  unfold tail4Ok
  have h₁ : ¬(0x90 ≤ b) := by omega
  have h₂ : ¬(0x80 ≤ b) := by omega
  split_ifs <;> simp [isTail, h₁, h₂]

/-- An ASCII byte is never swallowed by a multi-byte sequence: it always
reaches the decoded output as itself. -/
theorem mem_u8Loop_of_ascii {b : Nat} (hb : b < 0x80) :
    ∀ (bs : List Nat) (st : U8St), b ∈ bs → b ∈ u8Loop st bs := by
  intro bs
  induction bs with
  | nil => intro st h; cases h
  | cons b₁ rest ih =>
    intro st h
    rcases List.mem_cons.mp h with rfl | h
    · have hmem : b ∈ (u8Step st b).1 := by
        cases st with
        | start => simp [u8Step, u8Start, hb]
        | needS3 l => simp [u8Step, u8Start, tail3Ok_ascii hb, hb]
        | needS4 l => simp [u8Step, u8Start, tail4Ok_ascii hb, hb]
        | need2 acc => simp [u8Step, u8Start, isTail_ascii hb, hb]
        | need1 acc => simp [u8Step, u8Start, isTail_ascii hb, hb]
      rw [u8Loop]
      exact List.mem_append_left _ hmem
    · rw [u8Loop]
      exact List.mem_append_right _ (ih _ h)

/-- When strict UTF-8 decoding of the bytes would fail, the replacing
decoder emits at least one U+FFFD. -/
theorem mem_u8Loop_of_invalid :
    ∀ (bs : List Nat) (st : U8St), u8ValidLoop st bs = false → 0xfffd ∈ u8Loop st bs := by
  intro bs
  induction bs with
  | nil =>
    intro st h
    cases st with
    | start => cases h
    | needS3 l => simp [u8Loop, u8Flush]
    | needS4 l => simp [u8Loop, u8Flush]
    | need2 acc => simp [u8Loop, u8Flush]
    | need1 acc => simp [u8Loop, u8Flush]
  | cons b rest ih =>
    intro st h
    rw [u8Loop]
    cases st with
    | start =>
      by_cases h₁ : b < 0x80
      · simp only [u8ValidLoop, if_pos h₁] at h
        simp only [u8Step, u8Start, if_pos h₁]
        exact List.mem_append_right _ (ih _ h)
      · by_cases h₂ : (0xc2 ≤ b && b ≤ 0xdf) = true
        · simp only [u8ValidLoop, if_neg h₁, if_pos h₂] at h
          simp only [u8Step, u8Start, if_neg h₁, if_pos h₂]
          exact List.mem_append_right _ (ih _ h)
        · by_cases h₃ : (0xe0 ≤ b && b ≤ 0xef) = true
          · simp only [u8ValidLoop, if_neg h₁, if_neg h₂, if_pos h₃] at h
            simp only [u8Step, u8Start, if_neg h₁, if_neg h₂, if_pos h₃]
            exact List.mem_append_right _ (ih _ h)
          · by_cases h₄ : (0xf0 ≤ b && b ≤ 0xf4) = true
            · simp only [u8ValidLoop, if_neg h₁, if_neg h₂, if_neg h₃, if_pos h₄] at h
              simp only [u8Step, u8Start, if_neg h₁, if_neg h₂, if_neg h₃, if_pos h₄]
              exact List.mem_append_right _ (ih _ h)
            · simp only [u8Step, u8Start, if_neg h₁, if_neg h₂, if_neg h₃, if_neg h₄]
              exact List.mem_append_left _ (List.mem_singleton.mpr rfl)
    | needS3 l =>
      by_cases h₁ : tail3Ok l b = true
      · simp only [u8ValidLoop, if_pos h₁] at h
        simp only [u8Step, if_pos h₁]
        exact List.mem_append_right _ (ih _ h)
      · simp only [u8Step, if_neg h₁]
        exact List.mem_append_left _ (List.mem_cons_self _ _)
    | needS4 l =>
      by_cases h₁ : tail4Ok l b = true
      · simp only [u8ValidLoop, if_pos h₁] at h
        simp only [u8Step, if_pos h₁]
        exact List.mem_append_right _ (ih _ h)
      · simp only [u8Step, if_neg h₁]
        exact List.mem_append_left _ (List.mem_cons_self _ _)
    | need2 acc =>
      by_cases h₁ : isTail b = true
      · simp only [u8ValidLoop, if_pos h₁] at h
        simp only [u8Step, if_pos h₁]
        exact List.mem_append_right _ (ih _ h)
      · simp only [u8Step, if_neg h₁]
        exact List.mem_append_left _ (List.mem_cons_self _ _)
    | need1 acc =>
      by_cases h₁ : isTail b = true
      · simp only [u8ValidLoop, if_pos h₁] at h
        simp only [u8Step, if_pos h₁]
        exact List.mem_append_right _ (ih _ h)
      · simp only [u8Step, if_neg h₁]
        exact List.mem_append_left _ (List.mem_cons_self _ _)

/-- An ASCII code point already in the accumulated byte run reaches the
output of `unquoteAux`. -/
theorem mem_unquoteAux_of_acc {b : Nat} (hb : b < 0x80) :
    ∀ (ts : List UTok) (acc : List Nat), b ∈ acc → b ∈ unquoteAux ts acc := by
  intro ts
  induction ts with
  | nil =>
    intro acc h
    exact mem_u8Loop_of_ascii hb _ _ (List.mem_reverse.mpr h)
  | cons t rest ih =>
    intro acc h
    cases t with
    | byte b' => exact ih (b' :: acc) (List.mem_cons_of_mem _ h)
    | chr c =>
      rw [unquoteAux]
      exact List.mem_append_left _ (mem_u8Loop_of_ascii hb _ _ (List.mem_reverse.mpr h))

/-- An ASCII byte token reaches the output of `unquoteAux` as itself. -/
theorem mem_unquoteAux_of_byteTok {b : Nat} (hb : b < 0x80) :
    ∀ (ts : List UTok) (acc : List Nat), UTok.byte b ∈ ts → b ∈ unquoteAux ts acc := by
  intro ts
  induction ts with
  | nil => intro acc h; cases h
  | cons t rest ih =>
    intro acc h
    rcases List.mem_cons.mp h with heq | hmem
    · subst heq
      exact mem_unquoteAux_of_acc hb rest (b :: acc) (List.mem_cons_self _ _)
    · cases t with
      | byte b' => exact ih _ hmem
      | chr c =>
        rw [unquoteAux]
        exact List.mem_append_right _ (List.mem_cons_of_mem _ (ih [] hmem))

/-- A malformed percent-escape puts a literal `%` byte token into the
token stream. -/
theorem pct_byte_of_escFail :
    ∀ (s : PyStr) (st : PctSt), escOkLoop st s = false → UTok.byte 0x25 ∈ pctLoop st s := by
  intro s
  induction s with
  | nil =>
    intro st h
    cases st with
    | normal => cases h
    | sawPct => simp [pctLoop, pctFlush]
    | sawPctHex d₁ h₁ => simp [pctLoop, pctFlush]
  | cons c rest ih =>
    intro st h
    rw [pctLoop]
    cases st with
    | normal =>
      by_cases h₁ : (c == 0x25) = true
      · simp only [escOkLoop, if_pos h₁] at h
        simp only [pctStep, if_pos h₁]
        exact List.mem_append_right _ (ih _ h)
      · simp only [escOkLoop, if_neg h₁] at h
        simp only [pctStep, if_neg h₁]
        exact List.mem_append_right _ (ih _ h)
    | sawPct =>
      by_cases h₁ : (c == 0x25) = true
      · simp only [pctStep, if_pos h₁]
        exact List.mem_append_left _ (List.mem_singleton.mpr rfl)
      · simp only [escOkLoop, if_neg h₁] at h
        simp only [pctStep, if_neg h₁]
        cases hv : hexDigitVal c with
        | some d =>
          rw [hv] at h
          simp only [hv]
          exact List.mem_append_right _ (ih _ h)
        | none =>
          simp only [hv]
          exact List.mem_append_left _ (List.mem_cons_self _ _)
    | sawPctHex d₁ h₁ =>
      cases hv : hexDigitVal c with
      | some d =>
        simp only [escOkLoop, hv] at h
        simp only [pctStep, hv]
        exact List.mem_append_right _ (ih _ h)
      | none =>
        simp only [pctStep, hv]
        by_cases h₂ : (c == 0x25) = true
        · simp only [if_pos h₂]
          exact List.mem_append_left _ (List.mem_cons_self _ _)
        · simp only [if_neg h₂]
          exact List.mem_append_left _ (List.mem_cons_self _ _)

/-- Invalid byte runs put a U+FFFD into the output of `unquoteAux`. -/
theorem mem_unquoteAux_of_runsInvalid :
    ∀ (ts : List UTok) (acc : List Nat),
      runsValid ts acc = false → 0xfffd ∈ unquoteAux ts acc := by
  intro ts
  induction ts with
  | nil =>
    intro acc h
    exact mem_u8Loop_of_invalid _ _ h
  | cons t rest ih =>
    intro acc h
    cases t with
    | byte b => exact ih _ h
    | chr c =>
      rw [unquoteAux]
      rw [runsValid, Bool.and_eq_false_iff] at h
      rcases h with h | h
      · exact List.mem_append_left _ (mem_u8Loop_of_invalid _ _ h)
      · exact List.mem_append_right _ (List.mem_cons_of_mem _ (ih [] h))

/-- If decoding fails in the spec's sense, the decoded string contains a
literal `%` or a U+FFFD. -/
theorem unquote_badchar_of_decodeFail {s : PyStr} (h : decodeOk s = false) :
    0x25 ∈ unquote s ∨ 0xfffd ∈ unquote s := by
  rw [decodeOk, Bool.and_eq_false_iff] at h
  rcases h with h | h
  · exact Or.inl (mem_unquoteAux_of_byteTok (by omega) _ _ (pct_byte_of_escFail s .normal h))
  · exact Or.inr (mem_unquoteAux_of_runsInvalid _ _ h)

/-- Claim C2 (amended to the default grammar): with the default NAI
grammar, a present, non-empty, colon-free raw header whose
percent-decoding fails — malformed escape, or escape bytes that are not
valid UTF-8 — is rejected silently: no identity, environ and callback
unchanged, and the raw undecoded value still under `HTTP_USER`. -/
theorem claim_C2_default_rejects_undecodable (env : Env) (cb : Callback) (u : PyStr)
    (hget : Env.get env "HTTP_USER" = some u) (hne : u ≠ [])
    (hcolon : u.contains 0x3a = false) (hdec : decodeOk u = false) :
    WSGI_User.local_user defaultWSGIUser env = none ∧
    WSGI_User.inner_env defaultWSGIUser env = env ∧
    WSGI_User.inner_resp defaultWSGIUser env cb = cb ∧
    Env.get (WSGI_User.inner_env defaultWSGIUser env) "HTTP_USER" = some u := by
  have hm : re_nai_match (unquote u) = false := by
    rcases unquote_badchar_of_decodeFail hdec with h | h
    · exact re_nai_match_false_of_badchar h (by decide) (by decide)
    · exact re_nai_match_false_of_badchar h (by decide) (by decide)
  have hloc : WSGI_User.local_user defaultWSGIUser env = none := by
    unfold WSGI_User.local_user
    rw [hget]
    dsimp only
    rw [if_neg hne]
    rw [hcolon]
    simp only [Bool.false_eq_true, if_false]
    rw [defaultWSGIUser]
    dsimp only
    rw [hm]
    simp
  refine ⟨hloc, ?_, ?_, ?_⟩
  · simp [WSGI_User.inner_env, hloc]
  · simp [WSGI_User.inner_resp, hloc]
  · simp [WSGI_User.inner_env, hloc, hget]

theorem claim_C2_default_rejects_witness :
    WSGI_User.local_user defaultWSGIUser
      [("HTTP_USER", [0x6a, 0x25, 0x63, 0x25, 0x33, 0x62, 0x38, 0x68, 0x6e])] = none ∧
    WSGI_User.inner_env defaultWSGIUser
      [("HTTP_USER", [0x6a, 0x25, 0x63, 0x25, 0x33, 0x62, 0x38, 0x68, 0x6e])] =
      [("HTTP_USER", [0x6a, 0x25, 0x63, 0x25, 0x33, 0x62, 0x38, 0x68, 0x6e])] ∧
    WSGI_User.inner_resp defaultWSGIUser
      [("HTTP_USER", [0x6a, 0x25, 0x63, 0x25, 0x33, 0x62, 0x38, 0x68, 0x6e])]
      Callback.outer = Callback.outer ∧
    Env.get (WSGI_User.inner_env defaultWSGIUser
      [("HTTP_USER", [0x6a, 0x25, 0x63, 0x25, 0x33, 0x62, 0x38, 0x68, 0x6e])]) "HTTP_USER" =
      some [0x6a, 0x25, 0x63, 0x25, 0x33, 0x62, 0x38, 0x68, 0x6e] :=
  claim_C2_default_rejects_undecodable
    [("HTTP_USER", [0x6a, 0x25, 0x63, 0x25, 0x33, 0x62, 0x38, 0x68, 0x6e])] Callback.outer
    [0x6a, 0x25, 0x63, 0x25, 0x33, 0x62, 0x38, 0x68, 0x6e]
    (by decide) (by decide) (by decide) (by decide)

/-!
Machinery for claim C6: the language of `rex_nai` is characterised
structurally (dot-separated labels etc.) and compared with the grammar the
spec describes.
-/

/-- Eliminator for star derivations. -/
theorem RE.star_elim {r : RE} (P : PyStr → Prop) (h0 : P [])
    (h1 : ∀ s₁ s₂, RE.Matches r s₁ → RE.Matches (.star r) s₂ → P s₂ → P (s₁ ++ s₂)) :
    ∀ {s : PyStr}, RE.Matches (.star r) s → P s := by
  suffices h : ∀ (r' : RE) (s : PyStr), RE.Matches r' s → r' = .star r → P s by
    intro s hs
    exact h _ s hs rfl
  intro r' s h
  induction h with
  | eps => exact fun he => RE.noConfusion he
  | cls hp => exact fun he => RE.noConfusion he
  | catI h₁ h₂ ih₁ ih₂ => exact fun he => RE.noConfusion he
  | altL h ih => exact fun he => RE.noConfusion he
  | altR h ih => exact fun he => RE.noConfusion he
  | starNil => exact fun _ => h0
  | starCons h₁ h₂ ih₁ ih₂ =>
    intro he
    injection he with hr
    subst hr
    exact h1 _ _ h₁ h₂ (ih₂ rfl)

/-- Language of a character class. -/
theorem cls_lang {q : Nat → Bool} {s : PyStr} :
    RE.Matches (.cls q) s ↔ ∃ c, s = [c] ∧ q c = true := by
  constructor
  · exact RE.cls_inv
  · rintro ⟨c, rfl, hc⟩
    exact RE.Matches.cls hc

/-- Language of the star of a one-character regex. -/
theorem star_char_lang {r : RE} {q : Nat → Bool}
    (hr : ∀ s, RE.Matches r s ↔ ∃ c, s = [c] ∧ q c = true) :
    ∀ s, RE.Matches (.star r) s ↔ ∀ c ∈ s, q c = true := by
  intro s
  constructor
  · refine RE.star_elim (fun s => ∀ c ∈ s, q c = true)
      (fun c hc => absurd hc (List.not_mem_nil c)) ?_
    intro s₁ s₂ h₁ _ ih c hc
    obtain ⟨c₁, rfl, hq⟩ := (hr s₁).mp h₁
    rcases List.mem_append.mp hc with h | h
    · rwa [List.mem_singleton.mp h]
    · exact ih c h
  · induction s with
    | nil => exact fun _ => RE.Matches.starNil
    | cons c s' ih =>
      intro hall
      have h₁ : RE.Matches r [c] := (hr [c]).mpr ⟨c, rfl, hall c (List.mem_cons_self _ _)⟩
      have h₂ := RE.Matches.starCons h₁ (ih fun c hc => hall c (List.mem_cons_of_mem _ hc))
      simpa using h₂

/-- Language of `r+` for a one-character regex: non-empty strings over the
class. -/
theorem rplus_char_lang {r : RE} {q : Nat → Bool}
    (hr : ∀ s, RE.Matches r s ↔ ∃ c, s = [c] ∧ q c = true) :
    ∀ s, RE.Matches (RE.rplus r) s ↔ (s ≠ [] ∧ ∀ c ∈ s, q c = true) := by
  intro s
  constructor
  · intro h
    obtain ⟨s₁, s₂, rfl, h₁, h₂⟩ := RE.cat_inv h
    obtain ⟨c₁, rfl, hq⟩ := (hr s₁).mp h₁
    refine ⟨by simp, ?_⟩
    intro c hc
    rcases List.mem_append.mp hc with h | h
    · rwa [List.mem_singleton.mp h]
    · exact (star_char_lang hr s₂).mp h₂ c h
  · rintro ⟨hne, hall⟩
    cases s with
    | nil => exact absurd rfl hne
    | cons c s' =>
      have h₁ : RE.Matches r [c] := (hr [c]).mpr ⟨c, rfl, hall c (List.mem_cons_self _ _)⟩
      have h₂ : RE.Matches (.star r) s' :=
        (star_char_lang hr s').mpr fun c hc => hall c (List.mem_cons_of_mem _ hc)
      simpa using RE.Matches.catI h₁ h₂

theorem sepJoin_eq_append (a : Nat) (l : PyStr) (ls : List PyStr) :
    sepJoin a (l :: ls) = l ++ (ls.map (fun x => a :: x)).flatten := by
  induction ls generalizing l with
  | nil => simp [sepJoin]
  | cons l₂ ls' ih =>
    show l ++ a :: sepJoin a (l₂ :: ls') = _
    rw [ih l₂]
    simp

/-- Language of `(sep r)*` when `r`'s language is `LR`. -/
theorem star_sep_lang {r : RE} {a : Nat} {LR : PyStr → Prop}
    (hr : ∀ s, RE.Matches r s ↔ LR s) :
    ∀ s, RE.Matches (.star (.cat (.cls (fun c => c == a)) r)) s ↔
      ∃ ls : List PyStr, (∀ l ∈ ls, LR l) ∧ s = (ls.map (fun l => a :: l)).flatten := by
  intro s
  constructor
  · refine RE.star_elim
      (fun s => ∃ ls : List PyStr, (∀ l ∈ ls, LR l) ∧ s = (ls.map (fun l => a :: l)).flatten)
      ⟨[], by simp, by simp⟩ ?_
    rintro s₁ s₂ h₁ _ ⟨ls, hls, rfl⟩
    obtain ⟨sa, sr, rfl, ha, hrr⟩ := RE.cat_inv h₁
    obtain ⟨c, rfl, hc⟩ := RE.cls_inv ha
    rw [beq_iff_eq] at hc
    subst hc
    refine ⟨sr :: ls, ?_, by simp⟩
    intro l hl
    rcases List.mem_cons.mp hl with rfl | hl
    · exact (hr l).mp hrr
    · exact hls l hl
  · rintro ⟨ls, hls, rfl⟩
    induction ls with
    | nil => simpa using RE.Matches.starNil
    | cons l ls' ih =>
      have hcls : RE.Matches (.cls (fun c => c == a)) [a] := RE.Matches.cls (by simp)
      have h₁ : RE.Matches (.cat (.cls (fun c => c == a)) r) (a :: l) := by
        have := RE.Matches.catI hcls ((hr l).mpr (hls l (List.mem_cons_self _ _)))
        simpa using this
      have h₂ := ih fun l hl => hls l (List.mem_cons_of_mem _ hl)
      simpa using RE.Matches.starCons h₁ h₂

/-- Language of `r (sep r)*` when `r`'s language is `LR`: one or more
`sep`-separated `LR`-strings. -/
theorem cat_sepstar_lang {r : RE} {a : Nat} {LR : PyStr → Prop}
    (hr : ∀ s, RE.Matches r s ↔ LR s) :
    ∀ s, RE.Matches (.cat r (.star (.cat (.cls (fun c => c == a)) r))) s ↔
      ∃ ls, ls ≠ [] ∧ (∀ l ∈ ls, LR l) ∧ s = sepJoin a ls := by
  intro s
  constructor
  · intro h
    obtain ⟨s₁, s₂, rfl, h₁, h₂⟩ := RE.cat_inv h
    obtain ⟨ls, hls, rfl⟩ := (star_sep_lang hr s₂).mp h₂
    refine ⟨s₁ :: ls, by simp, ?_, (sepJoin_eq_append a s₁ ls).symm⟩
    intro l hl
    rcases List.mem_cons.mp hl with rfl | hl
    · exact (hr l).mp h₁
    · exact hls l hl
  · rintro ⟨ls, hne, hls, rfl⟩
    cases ls with
    | nil => exact absurd rfl hne
    | cons l₀ ls' =>
      rw [sepJoin_eq_append]
      exact RE.Matches.catI ((hr l₀).mpr (hls l₀ (List.mem_cons_self _ _)))
        ((star_sep_lang hr _).mpr ⟨ls', fun l hl => hls l (List.mem_cons_of_mem _ hl), rfl⟩)

theorem rex_string_atom_lang :
    ∀ s, RE.Matches (.alt (.cls alnumAscii) rex_char) s ↔
      ∃ c, s = [c] ∧ userCharB c = true := by
  intro s
  constructor
  · intro h
    rcases RE.alt_inv h with h | h
    · obtain ⟨c, rfl, hc⟩ := RE.cls_inv h
      exact ⟨c, rfl, by simp [userCharB, hc]⟩
    · obtain ⟨c, rfl, hc⟩ := RE.cls_inv h
      exact ⟨c, rfl, by simp [userCharB, hc]⟩
  · rintro ⟨c, rfl, hc⟩
    rw [userCharB, Bool.or_eq_true] at hc
    rcases hc with hc | hc
    · exact RE.Matches.altL (RE.Matches.cls hc)
    · exact RE.Matches.altR (RE.Matches.cls hc)

theorem rex_string_lang :
    ∀ s, RE.Matches rex_string s ↔ (s ≠ [] ∧ ∀ c ∈ s, userCharB c = true) :=
  rplus_char_lang rex_string_atom_lang

theorem rex_username_lang :
    ∀ s, RE.Matches rex_username s ↔
      ∃ ls, ls ≠ [] ∧ (∀ l ∈ ls, l ≠ [] ∧ ∀ c ∈ l, userCharB c = true) ∧
        s = sepJoin 0x2e ls :=
  cat_sepstar_lang rex_string_lang

theorem rex_rtext_lang :
    ∀ s, RE.Matches rex_utf8_rtext s ↔ ∃ c, s = [c] ∧ userCharB c = true :=
  rex_string_atom_lang

theorem rex_ldh_atom_lang :
    ∀ s, RE.Matches (.alt rex_utf8_rtext (.cls (fun c => c == 0x2d))) s ↔
      ∃ c, s = [c] ∧ ldhCharB c = true := by
  intro s
  constructor
  · intro h
    rcases RE.alt_inv h with h | h
    · obtain ⟨c, rfl, hc⟩ := (rex_rtext_lang _).mp h
      exact ⟨c, rfl, by simp [ldhCharB, hc]⟩
    · obtain ⟨c, rfl, hc⟩ := RE.cls_inv h
      exact ⟨c, rfl, by simp [ldhCharB, hc]⟩
  · rintro ⟨c, rfl, hc⟩
    rw [ldhCharB, Bool.or_eq_true] at hc
    rcases hc with hc | hc
    · exact RE.Matches.altL ((rex_rtext_lang _).mpr ⟨c, rfl, hc⟩)
    · exact RE.Matches.altR (RE.Matches.cls hc)

/-- `rex_ldh_str` matches the non-empty strings of label characters whose
last character is a username character. -/
theorem rex_ldh_str_lang :
    ∀ s, RE.Matches rex_ldh_str s ↔
      ∃ w c, s = w ++ [c] ∧ (∀ c' ∈ w, ldhCharB c' = true) ∧ userCharB c = true := by
  intro s
  constructor
  · intro h
    obtain ⟨s₁, s₂, rfl, h₁, h₂⟩ := RE.cat_inv h
    obtain ⟨c, rfl, hc⟩ := (rex_rtext_lang _).mp h₂
    exact ⟨s₁, c, rfl, (star_char_lang rex_ldh_atom_lang s₁).mp h₁, hc⟩
  · rintro ⟨w, c, rfl, hw, hc⟩
    exact RE.Matches.catI ((star_char_lang rex_ldh_atom_lang w).mpr hw)
      ((rex_rtext_lang _).mpr ⟨c, rfl, hc⟩)

/-- The strings matched by `(rex_ldh_str)*`: empty, or made of label
characters and ending in a username character. -/
theorem star_ldh_str_lang :
    ∀ s, RE.Matches (.star rex_ldh_str) s ↔
      (s = [] ∨ ((∀ c ∈ s, ldhCharB c = true) ∧
        ∃ w c, s = w ++ [c] ∧ userCharB c = true)) := by
  intro s
  constructor
  · refine RE.star_elim
      (fun s => s = [] ∨ ((∀ c ∈ s, ldhCharB c = true) ∧
        ∃ w c, s = w ++ [c] ∧ userCharB c = true))
      (Or.inl rfl) ?_
    intro s₁ s₂ h₁ _ ih
    obtain ⟨w, c, rfl, hw, hc⟩ := (rex_ldh_str_lang s₁).mp h₁
    have hall₁ : ∀ c' ∈ w ++ [c], ldhCharB c' = true := by
      intro c' hc'
      rcases List.mem_append.mp hc' with h | h
      · exact hw c' h
      · rw [List.mem_singleton.mp h]
        simp [ldhCharB, hc]
    rcases ih with rfl | ⟨hall₂, w₂, c₂, rfl, hc₂⟩
    · exact Or.inr ⟨by simpa using hall₁, w, c, by simp, hc⟩
    · refine Or.inr ⟨?_, (w ++ [c]) ++ w₂, c₂, by simp, hc₂⟩
      intro c' hc'
      rcases List.mem_append.mp hc' with h | h
      · exact hall₁ c' h
      · exact hall₂ c' h
  · rintro (rfl | ⟨hall, w, c, rfl, hc⟩)
    · exact RE.Matches.starNil
    · have h₁ : RE.Matches rex_ldh_str (w ++ [c]) :=
        (rex_ldh_str_lang _).mpr ⟨w, c, rfl, fun c' hc' =>
          hall c' (List.mem_append_left _ hc'), hc⟩
      simpa using RE.Matches.starCons h₁ RE.Matches.starNil

/-- `rex_label` matches the non-empty strings of label characters whose
first and last characters are username characters. -/
theorem rex_label_lang :
    ∀ s, RE.Matches rex_label s ↔
      ∃ c₀ t, s = c₀ :: t ∧ userCharB c₀ = true ∧
        (t = [] ∨ ((∀ c ∈ t, ldhCharB c = true) ∧
          ∃ w c, t = w ++ [c] ∧ userCharB c = true)) := by
  intro s
  constructor
  · intro h
    obtain ⟨s₁, s₂, rfl, h₁, h₂⟩ := RE.cat_inv h
    obtain ⟨c₀, rfl, hc₀⟩ := (rex_rtext_lang _).mp h₁
    exact ⟨c₀, s₂, rfl, hc₀, (star_ldh_str_lang s₂).mp h₂⟩
  · rintro ⟨c₀, t, rfl, hc₀, ht⟩
    have h₁ : RE.Matches rex_utf8_rtext [c₀] := (rex_rtext_lang _).mpr ⟨c₀, rfl, hc₀⟩
    have h₂ : RE.Matches (.star rex_ldh_str) t := (star_ldh_str_lang t).mpr ht
    simpa using RE.Matches.catI h₁ h₂

theorem userChar_ldh {c : Nat} (h : userCharB c = true) : ldhCharB c = true := by
  simp [ldhCharB, h]

theorem rex_label_lang_labelOk : ∀ s, RE.Matches rex_label s ↔ labelOk s := by
  intro s
  rw [rex_label_lang s]
  constructor
  · rintro ⟨c₀, t, rfl, hc₀, ht⟩
    rcases ht with rfl | ⟨hall, w, c, rfl, hc⟩
    · exact ⟨by simp, by simp [userChar_ldh hc₀], by simp [hc₀],
        by simp [hc₀]⟩
    · refine ⟨by simp, ?_, by simp [hc₀], ?_⟩
      · intro c' hc'
        rcases List.mem_cons.mp hc' with rfl | hc'
        · exact userChar_ldh hc₀
        · exact hall c' hc'
      · intro c' hc'
        rw [show c₀ :: (w ++ [c]) = (c₀ :: w) ++ [c] from rfl, List.getLast?_concat] at hc'
        rw [← Option.some.inj hc']
        exact hc
  · rintro ⟨hne, hall, hhead, hlast⟩
    cases s with
    | nil => exact absurd rfl hne
    | cons c₀ t =>
      have hc₀ : userCharB c₀ = true := hhead c₀ rfl
      refine ⟨c₀, t, rfl, hc₀, ?_⟩
      cases ht : t with
      | nil => exact Or.inl rfl
      | cons c₁ t' =>
        subst ht
        have htne : (c₁ :: t') ≠ ([] : PyStr) := by simp
        have hdec := List.dropLast_append_getLast htne
        refine Or.inr ⟨fun c hc => hall c (List.mem_cons_of_mem _ hc),
          (c₁ :: t').dropLast, (c₁ :: t').getLast htne, hdec.symm, ?_⟩
        apply hlast
        rw [show c₀ :: c₁ :: t' = (c₀ :: (c₁ :: t').dropLast) ++ [(c₁ :: t').getLast htne] by
          rw [List.cons_append, hdec], List.getLast?_concat]

/-- Language of `(sep r)+` when `r`'s language is `LR`. -/
theorem rplus_sep_lang {r : RE} {a : Nat} {LR : PyStr → Prop}
    (hr : ∀ s, RE.Matches r s ↔ LR s) :
    ∀ s, RE.Matches (RE.rplus (.cat (.cls (fun c => c == a)) r)) s ↔
      ∃ ls, ls ≠ [] ∧ (∀ l ∈ ls, LR l) ∧ s = (ls.map (fun l => a :: l)).flatten := by
  intro s
  constructor
  · intro h
    obtain ⟨s₁, s₂, rfl, h₁, h₂⟩ := RE.cat_inv h
    obtain ⟨sa, sr, rfl, ha, hrr⟩ := RE.cat_inv h₁
    obtain ⟨c, rfl, hc⟩ := RE.cls_inv ha
    rw [beq_iff_eq] at hc
    subst hc
    obtain ⟨ls, hls, rfl⟩ := (star_sep_lang hr s₂).mp h₂
    refine ⟨sr :: ls, by simp, ?_, by simp⟩
    intro l hl
    rcases List.mem_cons.mp hl with rfl | hl
    · exact (hr l).mp hrr
    · exact hls l hl
  · rintro ⟨ls, hne, hls, rfl⟩
    cases ls with
    | nil => exact absurd rfl hne
    | cons l₀ ls' =>
      have hcls : RE.Matches (.cls (fun c => c == a)) [a] := RE.Matches.cls (by simp)
      have h₁ : RE.Matches (.cat (.cls (fun c => c == a)) r) (a :: l₀) := by
        simpa using RE.Matches.catI hcls ((hr l₀).mpr (hls l₀ (List.mem_cons_self _ _)))
      have h₂ : RE.Matches (.star (.cat (.cls (fun c => c == a)) r))
          ((ls'.map (fun l => a :: l)).flatten) :=
        (star_sep_lang hr _).mpr ⟨ls', fun l hl => hls l (List.mem_cons_of_mem _ hl), rfl⟩
      simpa using RE.Matches.catI h₁ h₂

/-- `rex_realm` matches the dot-joins of two or more realm labels. -/
theorem rex_realm_lang :
    ∀ s, RE.Matches rex_realm s ↔
      ∃ ls, 2 ≤ ls.length ∧ (∀ l ∈ ls, labelOk l) ∧ s = sepJoin 0x2e ls := by
  intro s
  constructor
  · intro h
    obtain ⟨s₁, s₂, rfl, h₁, h₂⟩ := RE.cat_inv h
    obtain ⟨ls, hne, hls, rfl⟩ := (rplus_sep_lang rex_label_lang_labelOk s₂).mp h₂
    refine ⟨s₁ :: ls, ?_, ?_, (sepJoin_eq_append 0x2e s₁ ls).symm⟩
    · cases ls with
      | nil => exact absurd rfl hne
      | cons l₁ ls' => simp [Nat.succ_le_succ, Nat.le_add_left]
    · intro l hl
      rcases List.mem_cons.mp hl with rfl | hl
      · exact (rex_label_lang_labelOk l).mp h₁
      · exact hls l hl
  · rintro ⟨ls, hlen, hls, rfl⟩
    cases ls with
    | nil => simp at hlen
    | cons l₀ ls' =>
      cases ls' with
      | nil => simp at hlen
      | cons l₁ ls'' =>
        rw [sepJoin_eq_append]
        exact RE.Matches.catI
          ((rex_label_lang_labelOk l₀).mpr (hls l₀ (List.mem_cons_self _ _)))
          ((rplus_sep_lang rex_label_lang_labelOk _).mpr
            ⟨l₁ :: ls'', by simp, fun l hl => hls l (List.mem_cons_of_mem _ hl), rfl⟩)

/-- `rex_nai` matches: a username, optionally followed by `@realm`, or a
bare `@realm`. -/
theorem rex_nai_lang :
    ∀ s, RE.Matches rex_nai s ↔
      ((∃ u, usernameOk u ∧ (s = u ∨ ∃ r, realmOk r ∧ s = u ++ 0x40 :: r)) ∨
       (∃ r, realmOk r ∧ s = 0x40 :: r)) := by
  intro s
  constructor
  · intro h
    rcases RE.alt_inv h with h | h
    · obtain ⟨s₁, s₂, rfl, h₁, h₂⟩ := RE.cat_inv h
      have hu : usernameOk s₁ := (rex_username_lang s₁).mp h₁
      rcases RE.alt_inv h₂ with h₂ | h₂
      · obtain ⟨sa, sr, rfl, ha, hr⟩ := RE.cat_inv h₂
        obtain ⟨c, rfl, hc⟩ := RE.cls_inv ha
        rw [beq_iff_eq] at hc
        subst hc
        exact Or.inl ⟨s₁, hu, Or.inr ⟨sr, (rex_realm_lang sr).mp hr, rfl⟩⟩
      · cases h₂
        exact Or.inl ⟨s₁, hu, Or.inl (by simp)⟩
    · obtain ⟨sa, sr, rfl, ha, hr⟩ := RE.cat_inv h
      obtain ⟨c, rfl, hc⟩ := RE.cls_inv ha
      rw [beq_iff_eq] at hc
      subst hc
      exact Or.inr ⟨sr, (rex_realm_lang sr).mp hr, rfl⟩
  · rintro (⟨u, hu, heq | ⟨r, hr, heq⟩⟩ | ⟨r, hr, heq⟩) <;> rw [heq]
    · have h₁ := (rex_username_lang u).mpr hu
      have h₂ : RE.Matches (RE.ropt (.cat (.cls (fun c => c == 0x40)) rex_realm)) [] :=
        RE.Matches.altR RE.Matches.eps
      exact RE.Matches.altL (by simpa using RE.Matches.catI h₁ h₂)
    · have h₁ := (rex_username_lang u).mpr hu
      have hcls : RE.Matches (.cls (fun c => c == 0x40)) [0x40] := RE.Matches.cls (by simp)
      have h₂ : RE.Matches (.cat (.cls (fun c => c == 0x40)) rex_realm) (0x40 :: r) := by
        simpa using RE.Matches.catI hcls ((rex_realm_lang r).mpr hr)
      exact RE.Matches.altL (RE.Matches.catI h₁ (RE.Matches.altL h₂))
    · have hcls : RE.Matches (.cls (fun c => c == 0x40)) [0x40] := RE.Matches.cls (by simp)
      have h₂ : RE.Matches (.cat (.cls (fun c => c == 0x40)) rex_realm) (0x40 :: r) := by
        simpa using RE.Matches.catI hcls ((rex_realm_lang r).mpr hr)
      exact RE.Matches.altR h₂

theorem userCharB_iff (c : Nat) : userCharB c = true ↔ specUserChar c := by
  simp only [userCharB, alnumAscii, specUserChar, Bool.or_eq_true, Bool.and_eq_true,
    decide_eq_true_eq]
  omega

theorem ldhCharB_iff (c : Nat) : ldhCharB c = true ↔ (specUserChar c ∨ c = 0x2d) := by
  simp only [ldhCharB, Bool.or_eq_true, userCharB_iff, beq_iff_eq]

theorem labelOk_iff (l : PyStr) : labelOk l ↔ specRealmLabel l := by
  unfold labelOk specRealmLabel
  simp_rw [ldhCharB_iff, userCharB_iff]

theorem usernameOk_iff (u : PyStr) : usernameOk u ↔ specUsername u := by
  unfold usernameOk specUsername specUserLabel
  simp_rw [userCharB_iff]

theorem realmOk_iff (r : PyStr) : realmOk r ↔ specRealm r := by
  unfold realmOk specRealm
  simp_rw [labelOk_iff]

/-- The language of `rex_nai` is exactly the grammar the spec describes. -/
theorem rex_nai_lang_spec : ∀ s, RE.Matches rex_nai s ↔ specNai s := by
  intro s
  rw [rex_nai_lang s]
  unfold specNai
  simp_rw [usernameOk_iff, realmOk_iff]

/-- Claim C6: what the default matcher actually accepts.  The grammar
between the anchors is exactly the language the claim describes, but the
compiled `'^...$'` pattern used through `.match` additionally accepts any
such string followed by one trailing newline, because Python's `$` also
matches just before a string-final newline. -/
theorem claim_C6_default_grammar_language :
    ∀ s, re_nai_match s = true ↔
      (specNai s ∨ ∃ t, specNai t ∧ s = t ++ [0x0a]) := by
  intro s
  unfold re_nai_match matchLineAnchored
  rw [Bool.or_eq_true, Bool.and_eq_true, RE.bmatch_iff, RE.bmatch_iff, beq_iff_eq]
  rw [rex_nai_lang_spec, rex_nai_lang_spec]
  constructor
  · rintro (h | ⟨hlast, hm⟩)
    · exact Or.inl h
    · right
      have hne : s ≠ [] := by
        intro he
        rw [he] at hlast
        cases hlast
      have hg : s.getLast hne = 0x0a := by
        have h₃ := List.getLast?_eq_getLast s hne
        rw [hlast] at h₃
        exact (Option.some.inj h₃).symm
      refine ⟨s.dropLast, hm, ?_⟩
      have h₄ := List.dropLast_append_getLast hne
      rw [hg] at h₄
      exact h₄.symm
  · rintro (h | ⟨t, ht, rfl⟩)
    · exact Or.inl h
    · right
      refine ⟨?_, ?_⟩
      · rw [List.getLast?_concat]
      · rw [List.dropLast_concat]
        exact ht

example : pctEncode [0x6a, 0xf8] =
    [0x25, 0x36, 0x41, 0x25, 0x43, 0x33, 0x25, 0x42, 0x38] := by decide

example : unquote (pctEncode [0x6a, 0xf8]) = [0x6a, 0xf8] := by decide

theorem hexDigitVal_hexChar {d : Nat} (hd : d < 16) : hexDigitVal (hexChar d) = some d := by
  interval_cases d <;> rfl

theorem hexChar_ne_pct {d : Nat} (hd : d < 16) : (hexChar d == 0x25) = false := by
  interval_cases d <;> rfl

theorem pctLoop_encByte {b : Nat} (hb : b < 0x100) (rest : PyStr) :
    pctLoop .normal (pctEncodeByte b ++ rest) = .byte b :: pctLoop .normal rest := by
  have h₁ : b / 16 < 16 := by omega
  have h₂ : b % 16 < 16 := by omega
  show pctLoop .normal (0x25 :: hexChar (b / 16) :: hexChar (b % 16) :: rest) = _
  rw [pctLoop]
  rw [show pctStep .normal 0x25 = ([], .sawPct) from rfl]
  rw [pctLoop]
  rw [show pctStep .sawPct (hexChar (b / 16)) = ([], .sawPctHex (b / 16) (hexChar (b / 16)))
    from by simp [pctStep, hexChar_ne_pct h₁, hexDigitVal_hexChar h₁]]
  rw [pctLoop]
  rw [show pctStep (.sawPctHex (b / 16) (hexChar (b / 16))) (hexChar (b % 16)) =
      ([.byte (16 * (b / 16) + b % 16)], .normal)
    from by simp [pctStep, hexDigitVal_hexChar h₂]]
  rw [Nat.div_add_mod b 16]
  simp

theorem pctLoop_encBytes (bs : List Nat) (hb : ∀ b ∈ bs, b < 0x100) :
    pctLoop .normal ((bs.map pctEncodeByte).flatten) = bs.map UTok.byte := by
  induction bs with
  | nil => rfl
  | cons b bs' ih =>
    rw [List.map_cons, List.flatten_cons, pctLoop_encByte (hb b (List.mem_cons_self _ _))]
    rw [ih fun b hb' => hb b (List.mem_cons_of_mem _ hb')]
    rfl

theorem unquoteAux_bytes (bs : List Nat) :
    ∀ acc, unquoteAux (bs.map UTok.byte) acc = utf8DecodeReplace (acc.reverse ++ bs) := by
  induction bs with
  | nil => intro acc; simp [unquoteAux]
  | cons b bs' ih =>
    intro acc
    rw [List.map_cons, unquoteAux, ih (b :: acc)]
    congr 1
    simp

theorem u8Loop_encodeChar {c : Nat} (hc : c < 0x800) (rest : List Nat) :
    u8Loop .start (utf8EncodeChar c ++ rest) = c :: u8Loop .start rest := by
  by_cases h₁ : c < 0x80
  · rw [show utf8EncodeChar c = [c] from by simp [utf8EncodeChar, h₁]]
    rw [List.cons_append, List.nil_append, u8Loop]
    rw [show u8Step .start c = ([c], .start) from by simp [u8Step, u8Start, h₁]]
    simp
  · rw [show utf8EncodeChar c = [0xc0 + c / 0x40, 0x80 + c % 0x40] from by
      simp [utf8EncodeChar, h₁, hc]]
    have hs₁ : u8Step .start (0xc0 + c / 0x40) = ([], .need1 (c / 0x40)) := by
      have ha : ¬(0xc0 + c / 0x40 < 0x80) := by omega
      have hb₂ : (0xc2 ≤ 0xc0 + c / 0x40 && 0xc0 + c / 0x40 ≤ 0xdf) = true := by
        rw [Bool.and_eq_true, decide_eq_true_eq, decide_eq_true_eq]
        omega
      simp [u8Step, u8Start, ha, hb₂]
    have hs₂ : u8Step (.need1 (c / 0x40)) (0x80 + c % 0x40) = ([c], .start) := by
      have ht : isTail (0x80 + c % 0x40) = true := by
        rw [isTail, Bool.and_eq_true, decide_eq_true_eq, decide_eq_true_eq]
        omega
      rw [u8Step, if_pos ht]
      have hval : 0x40 * (c / 0x40) + (0x80 + c % 0x40 - 0x80) = c := by omega
      rw [hval]
    rw [List.cons_append, List.cons_append, List.nil_append]
    rw [u8Loop, hs₁, u8Loop, hs₂]
    simp

theorem utf8_decode_encode (s : PyStr) (hs : ∀ c ∈ s, c < 0x800) :
    utf8DecodeReplace ((s.map utf8EncodeChar).flatten) = s := by
  induction s with
  | nil => rfl
  | cons c t ih =>
    rw [List.map_cons, List.flatten_cons]
    rw [show utf8DecodeReplace (utf8EncodeChar c ++ (t.map utf8EncodeChar).flatten) =
        u8Loop .start (utf8EncodeChar c ++ (t.map utf8EncodeChar).flatten) from rfl]
    rw [u8Loop_encodeChar (hs c (List.mem_cons_self _ _))]
    rw [show u8Loop .start ((t.map utf8EncodeChar).flatten) =
        utf8DecodeReplace ((t.map utf8EncodeChar).flatten) from rfl]
    rw [ih fun c hc => hs c (List.mem_cons_of_mem _ hc)]

theorem utf8EncodeChar_lt {c : Nat} (hc : c < 0x800) : ∀ b ∈ utf8EncodeChar c, b < 0x100 := by
  intro b hb
  unfold utf8EncodeChar at hb
  by_cases h₁ : c < 0x80
  · rw [if_pos h₁] at hb
    rw [List.mem_singleton.mp hb]
    omega
  · rw [if_neg h₁, if_pos hc] at hb
    rcases List.mem_cons.mp hb with rfl | hb
    · omega
    · rw [List.mem_singleton.mp hb]
      omega

/-- Decode-encode round trip for strings of code points below `0x800`. -/
theorem unquote_pctEncode {s : PyStr} (hs : ∀ c ∈ s, c < 0x800) :
    unquote (pctEncode s) = s := by
  have hbytes : ∀ b ∈ (s.map utf8EncodeChar).flatten, b < 0x100 := by
    intro b hb
    obtain ⟨bl, hbl, hmem⟩ := List.mem_flatten.mp hb
    obtain ⟨c, hc, rfl⟩ := List.mem_map.mp hbl
    exact utf8EncodeChar_lt (hs c hc) b hmem
  rw [unquote, pctTokenize, pctEncode]
  rw [pctLoop_encBytes _ hbytes, unquoteAux_bytes]
  simpa using utf8_decode_encode s hs

theorem hexChar_ne_colon (d : Nat) : hexChar d ≠ 0x3a := by
  unfold hexChar
  by_cases h : d < 10 <;> simp [h] <;> omega

theorem pctEncode_no_colon (s : PyStr) : (pctEncode s).contains 0x3a = false := by
  rw [Bool.eq_false_iff]
  intro hc
  have hmem : (0x3a : Nat) ∈ pctEncode s := by simpa using hc
  obtain ⟨bl, hbl, hm⟩ := List.mem_flatten.mp hmem
  obtain ⟨b, _, rfl⟩ := List.mem_map.mp hbl
  rcases List.mem_cons.mp hm with h | h
  · cases h
  · rcases List.mem_cons.mp h with h | h
    · exact hexChar_ne_colon _ h.symm
    · rw [List.mem_singleton] at h
      exact hexChar_ne_colon _ h.symm

theorem pctEncode_ne_nil {s : PyStr} (h : s ≠ []) : pctEncode s ≠ [] := by
  cases s with
  | nil => exact absurd rfl h
  | cons c t =>
    rw [pctEncode, List.map_cons, List.flatten_cons]
    have he : utf8EncodeChar c ≠ [] := by
      unfold utf8EncodeChar
      split_ifs <;> simp
    obtain ⟨b, bs, hbe⟩ := List.exists_cons_of_ne_nil he
    rw [hbe]
    simp [pctEncodeByte]

theorem re_nai_match_ne_nil {s : PyStr} (h : re_nai_match s = true) : s ≠ [] := by
  intro he
  subst he
  revert h
  decide

theorem naiAlphaB_lt {c : Nat} (h : naiAlphaB c = true) : c < 0x100 := by
  revert h
  simp only [naiAlphaB, alnumAscii, Bool.or_eq_true, Bool.and_eq_true, decide_eq_true_eq,
    beq_iff_eq]
  omega

/-- Claim C7: round trip.  Percent-encoding any string the default
matcher accepts and presenting it as the `User` header to the default
middleware stores exactly that string as `LOCAL_USER`, and wraps the
callback with the variance marker. -/
theorem claim_C7_roundtrip (s : PyStr) (env : Env) (cb : Callback)
    (hget : Env.get env "HTTP_USER" = some (pctEncode s))
    (hm : re_nai_match s = true) :
    WSGI_User.local_user defaultWSGIUser env = some s ∧
    WSGI_User.inner_env defaultWSGIUser env = Env.set env "LOCAL_USER" s ∧
    WSGI_User.inner_resp defaultWSGIUser env cb = Callback.addVary cb := by
  have hchars : ∀ c ∈ s, c < 0x800 := by
    intro c hc
    rcases re_nai_match_alpha hm c hc with h | h
    · have := naiAlphaB_lt h
      omega
    · omega
  have hne : s ≠ [] := re_nai_match_ne_nil hm
  have hu : unquote (pctEncode s) = s := unquote_pctEncode hchars
  have hloc : WSGI_User.local_user defaultWSGIUser env = some s := by
    unfold WSGI_User.local_user
    rw [hget]
    dsimp only
    rw [if_neg (pctEncode_ne_nil hne)]
    rw [pctEncode_no_colon]
    simp only [Bool.false_eq_true, if_false]
    rw [defaultWSGIUser]
    dsimp only
    rw [hu, hm]
    simp
  exact ⟨hloc, by simp [WSGI_User.inner_env, hloc], by simp [WSGI_User.inner_resp, hloc]⟩

theorem claim_C7_roundtrip_witness :
    WSGI_User.local_user defaultWSGIUser
      [("HTTP_USER", pctEncode [0x6a, 0x6f, 0x68, 0x6e])] = some [0x6a, 0x6f, 0x68, 0x6e] ∧
    WSGI_User.inner_env defaultWSGIUser
      [("HTTP_USER", pctEncode [0x6a, 0x6f, 0x68, 0x6e])] =
      Env.set [("HTTP_USER", pctEncode [0x6a, 0x6f, 0x68, 0x6e])] "LOCAL_USER"
        [0x6a, 0x6f, 0x68, 0x6e] ∧
    WSGI_User.inner_resp defaultWSGIUser
      [("HTTP_USER", pctEncode [0x6a, 0x6f, 0x68, 0x6e])] Callback.outer =
      Callback.addVary Callback.outer :=
  claim_C7_roundtrip [0x6a, 0x6f, 0x68, 0x6e]
    [("HTTP_USER", pctEncode [0x6a, 0x6f, 0x68, 0x6e])] Callback.outer
    (by rfl) (by decide)
